import Mathlib

/-!
Verification development for the query-construction module of a python
client library for the ICAT metadata catalogue (`icat/query.py`).

The module builds JPQL-like search expressions.  Its data model and
operations are embedded shallowly below:

* `substnames`, `parents`, `makesubst`, `dosubst` mirror the module-level
  helpers of `icat/query.py`;
* `getnaturalorder` mirrors the recursive natural-order computation,
  with an explicit fuel parameter standing for termination of the
  python recursion;
* `Query`, `setOrder`, `addConditions`, `addIncludes`, `mkQuery` and
  `render` mirror the `Query` class: `render` models `Query.__str__`,
  returning the rendered string together with the updated query state
  (the python method mutates `self.includes`);
* entity metadata (`EntityClass`, `getAttrInfo`, `getentityclassbyname`)
  models the schema information the module reads from the client.

Machine errors (`ValueError` etc.) are modelled with `Except Err`;
operations that can only fail through such errors return `Option`/`Except`.
-/

/-- Relationship kind of an attribute, as exposed by the entity metadata:
a plain attribute, a to-one relation, or a to-many relation. -/
inductive RelType where
  | ATTRIBUTE
  | ONE
  | MANY
deriving DecidableEq, Repr

/-- Metadata for one attribute of an entity class: its relationship kind
and, for relations, the bean name of the related entity type. -/
structure AttrInfo where
  relType : RelType
  type : String
deriving DecidableEq, Repr

/-- Metadata of one entity class: bean name, declared natural sort
attributes (possibly absent), uniqueness constraint attributes, and the
attribute table consulted by `getAttrInfo`. -/
structure EntityClass where
  BeanName : String
  SortAttrs : Option (List String)
  Constraint : List String
  attrs : List (String × AttrInfo)
deriving DecidableEq, Repr

/-- The client, reduced to what the query module reads from it: the type
map listing all entity classes. -/
structure Client where
  typemap : List EntityClass
deriving DecidableEq, Repr

/-- Errors raised by the query module: `fuel` models non-termination of
the python recursion (never raised by the python code, only by the fueled
embedding), `valueError` models `ValueError`, `unknownAttr` models the
error raised by the metadata lookup `getAttrInfo` for a missing
attribute, `invalidPath` is used by the path resolver of this
development for paths that do not denote an attribute chain. -/
inductive Err where
  | fuel
  | valueError (msg : String)
  | unknownAttr (bean : String) (attr : String)
  | invalidPath
deriving DecidableEq, Repr

/-- A condition value of the `conditions` mapping: a single condition
string or a list of condition strings (python: `str` or `list`). -/
inductive CondVal where
  | one (s : String)
  | many (l : List String)
deriving DecidableEq, Repr

/-- The python `order` argument: a false value, `True` (natural order),
or an explicit list of attribute paths. -/
inductive OrderSpec where
  | noOrder
  | natural
  | explicit (l : List String)
deriving DecidableEq, Repr

/-- One element of a LIMIT pair: a non-negative integer or an opaque
placeholder string rendered verbatim. -/
inductive LimitVal where
  | num (n : Nat)
  | placeholder (s : String)
deriving DecidableEq, Repr

/-- The state of a `Query` object: target entity class, order list,
condition mapping (an association list in insertion order, mirroring the
python dict), include set, and the optional limit pair.  The `limit`
field belongs to the `setLimit`/LIMIT extension of the class that is
exercised by the test suite; see `setLimit` below. -/
structure Query where
  entity : EntityClass
  order : List String
  conditions : List (String × CondVal)
  includes : Finset String
  limit : Option (LimitVal × LimitVal)
deriving DecidableEq

/-- `substnames` of `icat/query.py`: symbolic names for the
representation of related objects in JOIN ... AS and INCLUDE ... AS. -/
def substnames : List (String × String) :=
  [ ("datafileFormat", "dff"),
    ("dataset", "ds"),
    ("dataset.investigation", "i"),
    ("facility", "f"),
    ("grouping", "g"),
    ("instrumentScientists", "isc"),
    ("investigation", "i"),
    ("investigationGroups", "ig"),
    ("investigationInstruments", "ii"),
    ("investigationUsers", "iu"),
    ("parameters", "p"),
    ("parameters.type", "pt"),
    ("type", "t"),
    ("user", "u"),
    ("userGroups", "ug") ]

/-- Auxiliary for `parents`: walk the characters, yielding the already
consumed part at each dot.  `pre` is the list of characters consumed so
far. -/
def parentsAux : List Char → List Char → List String
  | [], _ => []
  | c :: rest, pre =>
    if c = '.' then String.mk pre :: parentsAux rest (pre ++ [c])
    else parentsAux rest (pre ++ [c])

/-- `parents` of `icat/query.py`: the proper dotted prefixes of `obj`,
shortest first (python yields `obj[:i]` for every dot position `i`). -/
def parents (obj : String) : List String :=
  parentsAux obj.data []

/-- `p` is a proper dotted ancestor of `o`: `o` starts with `p`
followed by a dot.  This characterises membership in `parents o`. -/
def dotPre (p o : String) : Prop :=
  p.data ++ ['.'] <+: o.data

instance (p o : String) : Decidable (dotPre p o) := by
  unfold dotPre
  infer_instance

/-- Python's `<=` on strings, computed on the underlying character
lists: code-point lexicographic comparison. -/
def charListLe : List Char → List Char → Bool
  | [], _ => true
  | _ :: _, [] => false
  | c :: cs, d :: ds => if c < d then true else if d < c then false else charListLe cs ds

/-- The order python's `sorted` sorts strings by, as a relation. -/
def strOrd (a b : String) : Prop := charListLe a.data b.data = true

instance : DecidableRel strOrd :=
  fun a b => inferInstanceAs (Decidable (charListLe a.data b.data = true))

instance : IsTrans String strOrd := by
  constructor
  intro a b c
  unfold strOrd
  generalize a.data = x
  generalize b.data = y
  generalize c.data = z
  induction x generalizing y z with
  | nil => intro _ _; cases z <;> rfl
  | cons c cs ih =>
    intro hxy hyz
    cases y with
    | nil => simp [charListLe] at hxy
    | cons d ds =>
      cases z with
      | nil => simp [charListLe] at hyz
      | cons e es =>
        simp only [charListLe] at hxy hyz ⊢
        rcases lt_trichotomy c d with hcd | hcd | hcd
        · rcases lt_trichotomy d e with hde | hde | hde
          · rw [if_pos (lt_trans hcd hde)]
          · subst hde; rw [if_pos hcd]
          · rw [if_neg (lt_asymm hde), if_pos hde] at hyz
            simp at hyz
        · subst hcd
          rw [if_neg (lt_irrefl c), if_neg (lt_irrefl c)] at hxy
          rcases lt_trichotomy c e with hce | hce | hce
          · rw [if_pos hce]
          · subst hce
            rw [if_neg (lt_irrefl c), if_neg (lt_irrefl c)] at hyz ⊢
            exact ih _ _ hxy hyz
          · rw [if_neg (lt_asymm hce), if_pos hce] at hyz
            simp at hyz
        · rw [if_neg (lt_asymm hcd), if_pos hcd] at hxy
          simp at hxy

instance : IsTotal String strOrd := by
  constructor
  intro a b
  unfold strOrd
  generalize a.data = x
  generalize b.data = y
  induction x generalizing y with
  | nil => exact Or.inl (by cases y <;> rfl)
  | cons c cs ih =>
    cases y with
    | nil => exact Or.inr rfl
    | cons d ds =>
      simp only [charListLe]
      rcases lt_trichotomy c d with h | h | h
      · exact Or.inl (by rw [if_pos h])
      · subst h
        simp only [if_neg (lt_irrefl c)]
        exact ih ds
      · exact Or.inr (by rw [if_pos h])

instance : IsAntisymm String strOrd := by
  constructor
  intro a b hab hba
  unfold strOrd at hab hba
  have h : ∀ x y : List Char, charListLe x y = true → charListLe y x = true → x = y := by
    intro x
    induction x with
    | nil =>
      intro y _ hyx
      cases y with
      | nil => rfl
      | cons d ds => simp [charListLe] at hyx
    | cons c cs ih =>
      intro y hxy hyx
      cases y with
      | nil => simp [charListLe] at hxy
      | cons d ds =>
        simp only [charListLe] at hxy hyx
        rcases lt_trichotomy c d with hcd | hcd | hcd
        · rw [if_neg (lt_asymm hcd), if_pos hcd] at hyx
          simp at hyx
        · subst hcd
          rw [if_neg (lt_irrefl c), if_neg (lt_irrefl c)] at hxy hyx
          rw [ih ds hxy hyx]
        · rw [if_neg (lt_asymm hcd), if_pos hcd] at hxy
          simp at hxy
  exact String.ext (h _ _ hab hba)

/-- Python's `sorted` on a list of strings: sort by the code-point
lexicographic order. -/
def sortStrings (l : List String) : List String :=
  List.insertionSort strOrd l

/-- Python's `sorted` on the underlying list of a multiset of strings. -/
def msort (m : Multiset String) : List String :=
  Quot.liftOn m sortStrings (fun l₁ l₂ h =>
    List.eq_of_perm_of_sorted
      (((List.perm_insertionSort strOrd l₁).trans h).trans
        (List.perm_insertionSort strOrd l₂).symm)
      (List.sorted_insertionSort strOrd l₁) (List.sorted_insertionSort strOrd l₂))

/-- Python's `sorted` on a set of strings: enumerate the set in the
code-point lexicographic order. -/
def finsetSorted (S : Finset String) : List String :=
  msort S.val

/-- The state threaded through `makesubst`: the substitution built so
far (as an association list in insertion order, mirroring the python
dict) and the counter `substcount`. -/
structure SubstSt where
  subst : List (String × String)
  cnt : Nat
deriving DecidableEq, Repr

/-- One step of the loop body of `makesubst`: assign an alias to `o` if
it has none yet, preferring the symbolic name from `substnames` when
that name is not already taken, and falling back to the counter-based
name `"s%d"`. -/
def assignOne (st : SubstSt) (o : String) : SubstSt :=
  if (st.subst.lookup o).isSome then st
  else
    match substnames.lookup o with
    | some v =>
      if v ∈ st.subst.map Prod.snd then
        ⟨st.subst ++ [(o, "s" ++ Nat.repr (st.cnt + 1))], st.cnt + 1⟩
      else
        ⟨st.subst ++ [(o, v)], st.cnt⟩
    | none => ⟨st.subst ++ [(o, "s" ++ Nat.repr (st.cnt + 1))], st.cnt + 1⟩

/-- The double loop of `makesubst` starting from state `st`: for each
object (in the given order), for each of its parents (shortest first),
run `assignOne`. -/
def makesubstAux (st : SubstSt) (objs : List String) : SubstSt :=
  objs.foldl (fun st obj => (parents obj).foldl assignOne st) st

/-- `makesubst` of `icat/query.py`: build the alias table for the given
objects.  The python function receives an arbitrary iterable and begins
with `sorted(objs)`; the list argument stands for the iterable. -/
def makesubst (objs : List String) : List (String × String) :=
  (makesubstAux ⟨[], 0⟩ (sortStrings objs)).subst

/-- Auxiliary for `rsplitDot`/`pathRelType`: split the characters on
every dot (python `str.split('.')`).  `acc` is the current segment. -/
def splitDotsAux : List Char → List Char → List String
  | [], acc => [String.mk acc]
  | c :: rest, acc =>
    if c = '.' then String.mk acc :: splitDotsAux rest []
    else splitDotsAux rest (acc ++ [c])

/-- Python `s.split('.')`. -/
def splitDots (s : String) : List String :=
  splitDotsAux s.data []

/-- Split a dotted path at its last dot (python
`i = obj.rfind('.')`): `none` when there is no dot, otherwise the part
before the last dot and the part after it. -/
def rsplitDot (s : String) : Option (String × String) :=
  match splitDots s with
  | [] => none
  | [_] => none
  | a :: b :: rest =>
    some (String.intercalate "." ((a :: b :: rest).dropLast),
          (b :: rest).getLast (List.cons_ne_nil _ _))

/-- `dosubst` of `icat/query.py`: render one object against the alias
table; the root object is `o`, a dotted path is rendered through the
alias of its parent, and an object that itself has an alias gets an
` AS` label.  The python code indexes the dict (`subst[obj[:i]]`,
raising `KeyError` when absent), modelled by `none`. -/
def dosubst (obj : String) (subst : List (String × String)) : Option String :=
  let base : Option String :=
    match rsplitDot obj with
    | none => some ("o." ++ obj)
    | some (pre, last) =>
      match subst.lookup pre with
      | some al => some (al ++ "." ++ last)
      | none => none
  match base, subst.lookup obj with
  | some n, some al => some (n ++ " AS " ++ al)
  | some n, none => some n
  | none, _ => none

/-- `mapM` over `Option` for the rendering loops, written out
explicitly. -/
def optMapList {α β : Type} (f : α → Option β) : List α → Option (List β)
  | [] => some []
  | a :: l =>
    match f a, optMapList f l with
    | some b, some bs => some (b :: bs)
    | _, _ => none

/-- `mapM` over `Except` for the python loops that may raise, written
out explicitly; the first error wins, as in python. -/
def excMapList {α β : Type} (f : α → Except Err β) : List α → Except Err (List β)
  | [] => .ok []
  | a :: l =>
    match f a with
    | .error e => .error e
    | .ok b =>
      match excMapList f l with
      | .error e => .error e
      | .ok bs => .ok (b :: bs)

/-- The value of a condition as the list of condition strings it
contributes (python: a `str` counts as one condition). -/
def condToList : CondVal → List String
  | .one s => [s]
  | .many l => l

/-- `joinattrs` of `Query.__str__`: the union of the order paths and the
condition paths (`set(self.order) | set(self.conditions.keys())`),
represented as a duplicate-free list. -/
def joinattrsList (q : Query) : List String :=
  (q.order ++ q.conditions.map Prod.fst).dedup

/-- The JOIN part of `Query.__str__`: one ` JOIN` clause per alias table
entry, in sorted key order. -/
def renderJoins (subst : List (String × String)) : Option String :=
  match optMapList (fun obj => dosubst obj subst) (sortStrings (subst.map Prod.fst)) with
  | some parts => some (String.join (parts.map (fun s => " JOIN " ++ s)))
  | none => none

/-- The WHERE part of `Query.__str__`: empty when there are no
conditions, otherwise the conditions in sorted key order, each key
rendered through the alias table and combined with each of its
condition strings. -/
def renderWhere (conditions : List (String × CondVal)) (subst : List (String × String)) :
    Option String :=
  if conditions.isEmpty then some ""
  else
    match optMapList
        (fun a =>
          match dosubst a subst with
          | some attr =>
            some ((condToList ((conditions.lookup a).getD (CondVal.many []))).map
              (fun c => attr ++ " " ++ c))
          | none => none)
        (sortStrings (conditions.map Prod.fst)) with
    | some parts => some (" WHERE " ++ String.intercalate " AND " parts.flatten)
    | none => none

/-- The ORDER BY part of `Query.__str__`: empty when the order list is
empty, otherwise the order paths in list order, each rendered through
the alias table. -/
def renderOrder (order : List String) (subst : List (String × String)) : Option String :=
  if order.isEmpty then some ""
  else
    match optMapList (fun a => dosubst a subst) order with
    | some os => some (" ORDER BY " ++ String.intercalate ", " os)
    | none => none

/-- The INCLUDE part of `Query.__str__` together with the new include
set: the python code builds a second alias table from the includes,
adds the table's keys to `self.includes`, and renders the enlarged
include set in sorted order against that table. -/
def renderInclude (includes : Finset String) : Option (String × Finset String) :=
  if includes = ∅ then some ("", includes)
  else
    let subst := makesubst (finsetSorted includes)
    let newIncludes := includes ∪ (subst.map Prod.fst).toFinset
    match optMapList (fun obj => dosubst obj subst) (finsetSorted newIncludes) with
    | some incl => some (" INCLUDE " ++ String.intercalate ", " incl, newIncludes)
    | none => none

/-- `Query.__str__`: render the query.  Returns the rendered string and
the updated query state (the python method mutates `self.includes`
through `self.addIncludes(subst.keys())`). -/
def render (q : Query) : Option (String × Query) :=
  let base := "SELECT o FROM " ++ q.entity.BeanName ++ " o"
  let subst := makesubst (joinattrsList q)
  match renderJoins subst, renderWhere q.conditions subst,
      renderOrder q.order subst, renderInclude q.includes with
  | some joins, some w, some ord, some (inc, newInc) =>
    some (base ++ joins ++ w ++ ord ++ inc, { q with includes := newInc })
  | _, _, _, _ => none

/-- The rendered string of a query. -/
def renderStr (q : Query) : Option String :=
  (render q).map Prod.fst

/-- All proper dotted ancestors of the members of a set of paths. -/
def parentFinset (s : Finset String) : Finset String :=
  s.biUnion (fun o => (parents o).toFinset)

/-- `getAttrInfo`: look up the metadata of one attribute of an entity
class; a missing attribute is an error (the python client raises). -/
def getAttrInfo (e : EntityClass) (a : String) : Except Err AttrInfo :=
  match e.attrs.lookup a with
  | some i => .ok i
  | none => .error (.unknownAttr e.BeanName a)

/-- `getentityclassbyname` of `icat/query.py`: the first class of the
client's type map with the given bean name; `ValueError` when there is
none. -/
def getentityclassbyname (client : Client) (name : String) : Except Err EntityClass :=
  match client.typemap.find? (fun c => c.BeanName == name) with
  | some c => .ok c
  | none => .error (.valueError ("Invalid entity type '" ++ name ++ "'."))

/-- The base attribute list of `getnaturalorder`:
`attrs = list(entity.SortAttrs or entity.Constraint)`, extended by
`"id"` when `"id"` is a constraint attribute not already present. -/
def baseAttrs (entity : EntityClass) : List String :=
  let attrs :=
    match entity.SortAttrs with
    | some l => if l.isEmpty then entity.Constraint else l
    | none => entity.Constraint
  if "id" ∈ entity.Constraint ∧ "id" ∉ attrs then attrs ++ ["id"] else attrs

/-- `getnaturalorder` of `icat/query.py`: the natural order of an
entity class.  Plain attributes are kept, to-one relations are expanded
recursively with a dotted path, to-many relations are skipped.  The
fuel argument bounds the recursion depth of the python function; `.ok`
results are exactly the runs on which the python recursion returns. -/
def getnaturalorder (client : Client) : Nat → EntityClass → Except Err (List String)
  | 0, _ => .error .fuel
  | fuel + 1, entity =>
    match excMapList
        (fun a =>
          match getAttrInfo entity a with
          | .error e => .error e
          | .ok info =>
            match info.relType with
            | .ATTRIBUTE => .ok [a]
            | .MANY => .ok []
            | .ONE =>
              match getentityclassbyname client info.type with
              | .error e => .error e
              | .ok rclass =>
                match getnaturalorder client fuel rclass with
                | .error e => .error e
                | .ok rorder => .ok (rorder.map (fun ra => a ++ "." ++ ra)))
        (baseAttrs entity) with
    | .error e => .error e
    | .ok parts => .ok parts.flatten

/-- Resolve a dotted path, given as its segment list, against the
metadata: every non-final segment must be a to-one relation, and the
result is the relationship kind declared for the final segment. -/
def pathRelType (client : Client) : EntityClass → List String → Except Err RelType
  | _, [] => .error .invalidPath
  | entity, [a] =>
    match getAttrInfo entity a with
    | .error e => .error e
    | .ok info => .ok info.relType
  | entity, a :: rest =>
    match getAttrInfo entity a with
    | .error e => .error e
    | .ok info =>
      match info.relType with
      | .ONE =>
        match getentityclassbyname client info.type with
        | .error e => .error e
        | .ok rclass => pathRelType client rclass rest
      | _ => .error .invalidPath

/-- The `for attr in obj.split('.')` loop of `Query.setOrder`: walk the
segments keeping the current class and the `final` flag; a to-many
relation raises `ValueError` immediately.  `obj` and `beanName` are the
full path and the bean name of the query's entity type, used in the
error messages. -/
def walkSegs (client : Client) (obj : String) (beanName : String) :
    EntityClass → Bool → List String → Except Err (EntityClass × Bool)
  | rclass, final, [] => .ok (rclass, final)
  | rclass, final, attr :: rest =>
    if final then
      .error (.valueError ("Invalid attribute '" ++ obj ++ "' for " ++ beanName ++ "."))
    else
      match getAttrInfo rclass attr with
      | .error e => .error e
      | .ok info =>
        match info.relType with
        | .ATTRIBUTE => walkSegs client obj beanName rclass true rest
        | .ONE =>
          match getentityclassbyname client info.type with
          | .error e => .error e
          | .ok r => walkSegs client obj beanName r false rest
        | .MANY =>
          .error (.valueError ("Cannot use one to many relationship in '" ++ obj ++
            "' to order " ++ beanName ++ "."))

/-- The body of the `for obj in order` loop of `Query.setOrder`: an
attribute path contributes itself, a path naming a related object
contributes that class's natural order prefixed with the path. -/
def resolveOrderObj (client : Client) (fuel : Nat) (entity : EntityClass) (obj : String) :
    Except Err (List String) :=
  match walkSegs client obj entity.BeanName entity false (splitDots obj) with
  | .error e => .error e
  | .ok (rclass, final) =>
    if final then .ok [obj]
    else
      match getnaturalorder client fuel rclass with
      | .error e => .error e
      | .ok rorder => .ok (rorder.map (fun ra => obj ++ "." ++ ra))

/-- `Query.setOrder`: `True` gives the natural order, a false value no
order, and an explicit non-empty list is resolved obj by obj. -/
def setOrder (client : Client) (fuel : Nat) (entity : EntityClass) :
    OrderSpec → Except Err (List String)
  | .natural => getnaturalorder client fuel entity
  | .noOrder => .ok []
  | .explicit l =>
    if l.isEmpty then .ok []
    else
      match excMapList (resolveOrderObj client fuel entity) l with
      | .error e => .error e
      | .ok parts => .ok parts.flatten

/-- One step of `Query.addConditions`: add the conditions `v` on the
attribute `a`, merging with an existing entry into a list. -/
def addCondition (conds : List (String × CondVal)) (a : String) (v : CondVal) :
    List (String × CondVal) :=
  match conds.lookup a with
  | some old =>
    conds.map (fun kv =>
      if kv.1 = a then (kv.1, CondVal.many (condToList old ++ condToList v)) else kv)
  | none => conds ++ [(a, v)]

/-- `Query.addConditions`: fold the new conditions into the mapping. -/
def addConditions (conds : List (String × CondVal)) (new : List (String × CondVal)) :
    List (String × CondVal) :=
  new.foldl (fun c av => addCondition c av.1 av.2) conds

/-- `Query.addIncludes`: set union into the include set. -/
def addIncludes (includes : Finset String) (new : List String) : Finset String :=
  includes ∪ new.toFinset

/-- The `Query` constructor for an entity type given by name: look the
class up, set the order, add the initial conditions and includes. -/
def mkQuery (client : Client) (fuel : Nat) (entityName : String) (order : OrderSpec)
    (conditions : List (String × CondVal)) (includes : List String) : Except Err Query :=
  match getentityclassbyname client entityName with
  | .error e => .error e
  | .ok entity =>
    match setOrder client fuel entity order with
    | .error e => .error e
    | .ok ord =>
      .ok { entity := entity, order := ord,
            conditions := addConditions [] conditions,
            includes := addIncludes ∅ includes,
            limit := none }

/-- Modelled from the spec: `Query.setLimit` is absent from the staged
`icat/query.py` (only the test suite calls it); per the spec it stores
a pair whose elements are each a non-negative integer or an opaque
placeholder string. -/
def setLimit (q : Query) (l : LimitVal × LimitVal) : Query :=
  { q with limit := some l }

/-- Modelled from the spec: the rendering of one LIMIT slot; a
placeholder string is rendered verbatim, the substitution being the
caller's business. -/
def renderLimitVal : LimitVal → String
  | .num n => Nat.repr n
  | .placeholder s => s

/-- Modelled from the spec: the LIMIT clause appended by rendering when
a limit was set. -/
def limitClause : Option (LimitVal × LimitVal) → String
  | none => ""
  | some (off, cnt) => " LIMIT " ++ renderLimitVal off ++ ", " ++ renderLimitVal cnt

/-- Modelled from the spec: rendering in the presence of the `setLimit`
extension appends `LIMIT <offset>, <count>` to the rendered query
whenever a limit was set. -/
def renderWithLimit (q : Query) : Option (String × Query) :=
  (render q).map (fun sq => (sq.1 ++ limitClause q.limit, sq.2))

/-- An alias table is collision free: no two keys map to the same alias
token. -/
def aliasInjective (subst : List (String × String)) : Prop :=
  ∀ p q a, subst.lookup p = some a → subst.lookup q = some a → p = q

/-- The set of attribute paths named by C1's reading of the spec: the
union of the condition paths, the order paths and the include paths
(the spec's "alias table over the union of (condition paths ∪ order
paths ∪ include paths)"). -/
def specSharedAttrs (q : Query) : List String :=
  (q.order ++ q.conditions.map Prod.fst ++ finsetSorted q.includes).dedup

/-- The alias allocation described by C5's reading of the spec: the
prefixes themselves processed in lexicographic order of the dotted path
string. -/
def lexOrderSubst (objs : List String) : List (String × String) :=
  ((sortStrings ((objs.flatMap parents).dedup)).foldl assignOne ⟨[], 0⟩).subst

/-- Well-formed entity class metadata: attribute names contain no dot
(they are single path segments). -/
def wfEntityClass (e : EntityClass) : Prop :=
  ∀ pa ∈ e.attrs, '.' ∉ pa.1.data

/-- Well-formed client metadata: every class of the type map is
well-formed. -/
def wfClient (client : Client) : Prop :=
  ∀ e ∈ client.typemap, wfEntityClass e

/-- The list of first components ("keys") of an association list. -/
def alKeys {β : Type} (l : List (String × β)) : List String :=
  l.map Prod.fst

/-- `freshList ks l`: the elements of `l` that are new (not in `ks` and
not seen earlier in `l`), in order of first occurrence.  This is the
sequence of objects `makesubst` actually assigns aliases to. -/
def freshList (ks : List String) : List String → List String
  | [] => []
  | o :: rest => if o ∈ ks then freshList ks rest else o :: freshList (o :: ks) rest

/-- The first element of `l` of which `r` is a proper dotted ancestor:
the host whose processing first assigns an alias to `r`. -/
def firstHost (l : List String) (r : String) : Option String :=
  l.find? (fun o => decide (dotPre r o))

/-- The order in which two prefixes are first encountered while
scanning the hosts of `l` in list order, each host's parents shortest
first: earlier host first, and within one host the shorter prefix
first. -/
def keyOrder (l : List String) (r t : String) : Prop :=
  ∃ o₁ o₂, firstHost l r = some o₁ ∧ firstHost l t = some o₂ ∧
    (o₁ < o₂ ∨ (o₁ = o₂ ∧ r.data.length < t.data.length))

/-- Decimal value of a digit character list; inverts the digit list
produced by `Nat.repr`. -/
def decValAux (l : List Char) : Nat :=
  l.foldl (fun acc c => acc * 10 + (c.toNat - '0'.toNat)) 0

/-- Invariant of the `makesubst` fold: alias values are free of
duplicates, and every alias is either the `substnames` entry for its
key or a counter token `"s%d"` with index between 1 and the current
counter. -/
def stInv (st : SubstSt) : Prop :=
  (st.subst.map Prod.snd).Nodup ∧
    ∀ pa ∈ st.subst,
      pa ∈ substnames ∨ ∃ k, 1 ≤ k ∧ k ≤ st.cnt ∧ pa.2 = "s" ++ Nat.repr k

/-! ### Concrete example data used by the witnesses and counterexamples -/

/-- An entity class with no attribute metadata, for examples that never
consult it. -/
def entE : EntityClass := ⟨"E", none, [], []⟩

/-- An example query: one condition on `beta.x` and one include of
`alpha.y`. -/
def qC1 : Query := ⟨entE, [], [("beta.x", CondVal.one "< 0")], {"alpha.y"}, none⟩

/-- The state `qC1` is left in after rendering: the proper prefix
`alpha` of the included path has been added to the include set. -/
def qC1after : Query :=
  ⟨entE, [], [("beta.x", CondVal.one "< 0")], {"alpha.y", "alpha"}, none⟩

/-- The string `render` produces for `qC1`. -/
def qC1str : String :=
  "SELECT o FROM E o JOIN o.beta AS s1 WHERE s1.x < 0 INCLUDE o.alpha AS s1, s1.y"

/-- The Datafile entity class of the concrete Datafile scenario. -/
def dfClassB : EntityClass := ⟨"Datafile", none, [], []⟩

/-- The client of the concrete Datafile scenario: a type map holding
only `Datafile`. -/
def clientB : Client := ⟨[dfClassB]⟩

/-- The conditions of the concrete Datafile scenario, in the order the
caller writes them. -/
def condsB : List (String × CondVal) :=
  [("name", CondVal.one "= 'f.nxs'"),
   ("dataset.name", CondVal.one "= 'd1'"),
   ("dataset.investigation.name", CondVal.one "= 'I1'")]

/-- The query of the concrete Datafile scenario as the constructor
builds it. -/
def qB : Query := ⟨dfClassB, [], condsB, ∅, none⟩

/-- The string the concrete Datafile scenario renders to. -/
def qBstr : String :=
  "SELECT o FROM Datafile o JOIN o.dataset AS ds JOIN ds.investigation AS i" ++
    " WHERE i.name = 'I1' AND ds.name = 'd1' AND o.name = 'f.nxs'"

/-- An entity class `B` whose natural order is its sort attribute
`num`. -/
def classB7 : EntityClass := ⟨"B", some ["num"], [], [("num", ⟨RelType.ATTRIBUTE, "String"⟩)]⟩

/-- An entity class `A` whose sort attributes hold a plain attribute, a
to-one relation to `B` and a to-many relation to `B`, with `id` in the
constraint. -/
def classA7 : EntityClass :=
  ⟨"A", some ["name", "ref", "many"], ["id"],
   [("name", ⟨RelType.ATTRIBUTE, "String"⟩), ("ref", ⟨RelType.ONE, "B"⟩),
    ("many", ⟨RelType.MANY, "B"⟩), ("id", ⟨RelType.ATTRIBUTE, "Long"⟩)]⟩

/-- A client whose type map holds `A` and `B`. -/
def clientC7 : Client := ⟨[classA7, classB7]⟩

/-- A Datafile entity class whose only attribute is the to-many
relation `parameters`. -/
def dfClassC8 : EntityClass :=
  ⟨"Datafile", none, [], [("parameters", ⟨RelType.MANY, "DatafileParameter"⟩)]⟩

/-- A client whose type map holds only `dfClassC8`. -/
def clientC8 : Client := ⟨[dfClassC8]⟩

/-! ### Characterisation of `parents` -/

theorem parentsAux_cons_dot (rest pre : List Char) :
    parentsAux ('.' :: rest) pre = String.mk pre :: parentsAux rest (pre ++ ['.']) := by
  simp [parentsAux]

theorem parentsAux_cons_ne {c : Char} (h : c ≠ '.') (rest pre : List Char) :
    parentsAux (c :: rest) pre = parentsAux rest (pre ++ [c]) := by
  simp [parentsAux, h]

theorem parentsAux_mem (cs : List Char) : ∀ (pre : List Char) (p : String),
    p ∈ parentsAux cs pre ↔ ∃ t, pre ++ cs = p.data ++ '.' :: t ∧ pre <+: p.data := by
  induction cs with
  | nil =>
    intro pre p
    simp only [parentsAux, List.not_mem_nil, List.append_nil, false_iff]
    rintro ⟨t, h1, h2⟩
    have hl := h2.length_le
    rw [h1] at hl
    simp only [List.length_append, List.length_cons] at hl
    omega
  | cons c rest ih =>
    intro pre p
    by_cases hc : c = '.'
    · subst hc
      rw [parentsAux_cons_dot, List.mem_cons]
      constructor
      · rintro (rfl | hmem)
        · exact ⟨rest, rfl, List.prefix_refl _⟩
        · obtain ⟨t, h1, h2⟩ := (ih (pre ++ ['.']) p).mp hmem
          refine ⟨t, ?_, (List.prefix_append pre ['.']).trans h2⟩
          rw [← h1]; simp
      · rintro ⟨t, h1, h2⟩
        obtain ⟨u, hu⟩ := h2
        cases u with
        | nil =>
          left
          apply String.ext
          simpa using hu.symm
        | cons u₀ u' =>
          right
          rw [← hu] at h1
          rw [List.append_assoc] at h1
          have htail : ('.' : Char) :: rest = u₀ :: (u' ++ '.' :: t) := by
            have := List.append_cancel_left h1
            simpa using this
          injection htail with hu₀ hrest
          refine (ih (pre ++ ['.']) p).mpr ⟨t, ?_, ?_⟩
          · rw [← hu, ← hu₀, hrest]
            simp
          · rw [← hu, ← hu₀]
            exact ⟨u', by simp⟩
    · rw [parentsAux_cons_ne hc, ih (pre ++ [c]) p]
      constructor
      · rintro ⟨t, h1, h2⟩
        refine ⟨t, ?_, (List.prefix_append pre [c]).trans h2⟩
        rw [← h1]; simp
      · rintro ⟨t, h1, h2⟩
        obtain ⟨u, hu⟩ := h2
        cases u with
        | nil =>
          exfalso
          rw [← hu] at h1
          simp only [List.append_nil] at h1
          have h2' := List.append_cancel_left h1
          injection h2' with hc' htl
          exact hc hc'
        | cons u₀ u' =>
          rw [← hu] at h1
          rw [List.append_assoc] at h1
          have htail : c :: rest = u₀ :: (u' ++ '.' :: t) := by
            have := List.append_cancel_left h1
            simpa using this
          injection htail with hu₀ hrest
          refine ⟨t, ?_, ?_⟩
          · rw [← hu, ← hu₀, hrest]
            simp
          · rw [← hu, ← hu₀]
            exact ⟨u', by simp⟩

theorem parents_mem (p o : String) : p ∈ parents o ↔ dotPre p o := by
  unfold parents dotPre
  rw [parentsAux_mem]
  constructor
  · rintro ⟨t, h1, -⟩
    exact ⟨t, by simpa using h1.symm⟩
  · rintro ⟨t, ht⟩
    exact ⟨t, by simpa using ht.symm, List.nil_prefix⟩

theorem parentsAux_pre (cs : List Char) (pre : List Char) (p : String)
    (h : p ∈ parentsAux cs pre) : pre <+: p.data := by
  obtain ⟨t, -, h2⟩ := (parentsAux_mem cs pre p).mp h
  exact h2

theorem parentsAux_pairwise (cs : List Char) : ∀ pre : List Char,
    (parentsAux cs pre).Pairwise (fun p q => dotPre p q) := by
  induction cs with
  | nil => intro pre; simp [parentsAux]
  | cons c rest ih =>
    intro pre
    by_cases hc : c = '.'
    · subst hc
      rw [parentsAux_cons_dot]
      refine List.Pairwise.cons ?_ (ih (pre ++ ['.']))
      intro q hq
      have := parentsAux_pre rest (pre ++ ['.']) q hq
      unfold dotPre
      simpa using this
    · rw [parentsAux_cons_ne hc]
      exact ih (pre ++ [c])

theorem parents_pairwise (o : String) :
    (parents o).Pairwise (fun p q => dotPre p q) :=
  parentsAux_pairwise o.data []

theorem dotPre_trans {a b c : String} (h1 : dotPre a b) (h2 : dotPre b c) : dotPre a c := by
  unfold dotPre at *
  exact (h1.trans (List.prefix_append b.data ['.'])).trans h2

theorem dotPre_of_data_prefix {t p x : String} (h1 : dotPre t p) (h2 : p.data <+: x.data) :
    dotPre t x :=
  h1.trans h2

/-! ### Lexicographic order lemmas -/

theorem lexLt_of_prefix_ne : ∀ (l₁ l₂ : List Char), l₁ <+: l₂ → l₁ ≠ l₂ →
    List.Lex (· < ·) l₁ l₂ := by
  intro l₁
  induction l₁ with
  | nil =>
    intro l₂ _ hne
    cases l₂ with
    | nil => exact absurd rfl hne
    | cons b bs => exact List.Lex.nil
  | cons a t₁ ih =>
    intro l₂ hp hne
    cases l₂ with
    | nil => exact absurd (List.prefix_nil.mp hp) (by simp)
    | cons b t₂ =>
      obtain ⟨rfl, hp'⟩ := List.cons_prefix_cons.mp hp
      exact List.Lex.cons (ih t₂ hp' (fun h => hne (by rw [h])))

theorem lexLt_interval : ∀ (p x o : List Char), p <+: o →
    List.Lex (· < ·) p x → List.Lex (· < ·) x o → p <+: x := by
  intro p
  induction p with
  | nil => intro x o _ _ _; exact List.nil_prefix
  | cons c p' ih =>
    intro x o hpo hpx hxo
    cases o with
    | nil => exact absurd (List.prefix_nil.mp hpo) (by simp)
    | cons c₀ o' =>
      obtain ⟨rfl, hpo'⟩ := List.cons_prefix_cons.mp hpo
      cases x with
      | nil => cases hpx
      | cons d x' =>
        cases hpx with
        | rel hcd =>
          cases hxo with
          | rel hdc => exact absurd hcd (lt_asymm hdc)
          | cons h => exact absurd hcd (lt_irrefl _)
        | cons hpx' =>
          cases hxo with
          | rel hdc => exact absurd hdc (lt_irrefl _)
          | cons hxo' =>
            exact List.cons_prefix_cons.mpr ⟨rfl, ih x' o' hpo' hpx' hxo'⟩

theorem strLt_iff (s t : String) : s < t ↔ List.Lex (· < ·) s.data t.data :=
  String.lt_iff_toList_lt

theorem dotPre_str_lt {p o : String} (h : dotPre p o) : p < o := by
  rw [strLt_iff]
  have hp : p.data <+: o.data := (List.prefix_append p.data ['.']).trans h
  refine lexLt_of_prefix_ne _ _ hp ?_
  intro he
  have hl := h.length_le
  rw [← he] at hl
  simp only [List.length_append, List.length_cons, List.length_nil] at hl
  omega

theorem strLt_interval {p x o : String} (h : p.data <+: o.data) (h1 : p < x) (h2 : x < o) :
    p.data <+: x.data :=
  lexLt_interval p.data x.data o.data h ((strLt_iff _ _).mp h1) ((strLt_iff _ _).mp h2)

theorem prefix_drop_last_elem {l : List Char} {t : List Char} {c : Char}
    (h : l <+: t ++ [c]) (hlen : l.length ≤ t.length) : l <+: t := by
  rw [List.prefix_iff_eq_take] at h
  rw [List.take_append_eq_append_take] at h
  have h0 : l.length - t.length = 0 := by omega
  rw [h0] at h
  simp only [List.take_zero, List.append_nil] at h
  rw [h]
  exact List.take_prefix _ _

theorem dotPre_len_lt {r t o : String} (h1 : dotPre r o) (h2 : dotPre t o)
    (hlen : r.data.length < t.data.length) : dotPre r t := by
  unfold dotPre at *
  have hp : r.data ++ ['.'] <+: t.data ++ ['.'] :=
    List.prefix_of_prefix_length_le h1 h2
      (by simp only [List.length_append, List.length_cons, List.length_nil]; omega)
  exact prefix_drop_last_elem hp
    (by simp only [List.length_append, List.length_cons, List.length_nil]; omega)

theorem dotPre_eq_of_len {r t o : String} (h1 : dotPre r o) (h2 : dotPre t o)
    (hlen : r.data.length = t.data.length) : r = t := by
  unfold dotPre at *
  have hp : r.data ++ ['.'] <+: t.data ++ ['.'] :=
    List.prefix_of_prefix_length_le h1 h2
      (by simp only [List.length_append, List.length_cons, List.length_nil]; omega)
  have heq := hp.eq_of_length
    (by simp only [List.length_append, List.length_cons, List.length_nil]; omega)
  obtain ⟨h, -⟩ := List.append_inj heq hlen
  exact String.ext h

/-! ### `freshList` and the structure of `makesubst` -/

theorem freshList_congr : ∀ (l ks₁ ks₂ : List String),
    (∀ x, x ∈ ks₁ ↔ x ∈ ks₂) → freshList ks₁ l = freshList ks₂ l := by
  intro l
  induction l with
  | nil => intro ks₁ ks₂ h; rfl
  | cons o rest ih =>
    intro ks₁ ks₂ h
    simp only [freshList]
    by_cases ho : o ∈ ks₁
    · rw [if_pos ho, if_pos ((h o).mp ho)]
      exact ih ks₁ ks₂ h
    · rw [if_neg ho, if_neg (fun hx => ho ((h o).mpr hx))]
      refine congrArg (o :: ·) (ih _ _ ?_)
      intro x
      simp only [List.mem_cons]
      exact or_congr Iff.rfl (h x)

theorem mem_freshList : ∀ (l ks : List String) (x : String),
    x ∈ freshList ks l ↔ x ∈ l ∧ x ∉ ks := by
  intro l
  induction l with
  | nil => intro ks x; simp [freshList]
  | cons o rest ih =>
    intro ks x
    simp only [freshList]
    by_cases ho : o ∈ ks
    · rw [if_pos ho, ih]
      simp only [List.mem_cons]
      constructor
      · rintro ⟨h1, h2⟩; exact ⟨Or.inr h1, h2⟩
      · rintro ⟨h1 | h1, h2⟩
        · exact absurd (h1 ▸ ho) h2
        · exact ⟨h1, h2⟩
    · rw [if_neg ho]
      simp only [List.mem_cons, ih, List.mem_cons]
      constructor
      · rintro (rfl | ⟨h1, h2⟩)
        · exact ⟨Or.inl rfl, ho⟩
        · exact ⟨Or.inr h1, fun hx => h2 (Or.inr hx)⟩
      · rintro ⟨rfl | h1, h2⟩
        · exact Or.inl rfl
        · by_cases hxo : x = o
          · exact Or.inl hxo
          · exact Or.inr ⟨h1, fun hx => (by rcases hx with h | h; exact hxo h; exact h2 h)⟩

theorem freshList_cons (ks : List String) (o : String) (rest : List String) :
    freshList ks (o :: rest) =
      if o ∈ ks then freshList ks rest else o :: freshList (o :: ks) rest := rfl

theorem freshList_append : ∀ (u v ks : List String),
    freshList ks (u ++ v) = freshList ks u ++ freshList (u ++ ks) v := by
  intro u
  induction u with
  | nil => intro v ks; rfl
  | cons o u' ih =>
    intro v ks
    rw [List.cons_append, freshList_cons, freshList_cons]
    by_cases ho : o ∈ ks
    · rw [if_pos ho, if_pos ho, ih]
      refine congrArg _ (freshList_congr _ _ _ ?_)
      intro x
      simp only [List.cons_append, List.mem_append, List.mem_cons]
      constructor
      · rintro (h | h)
        · exact Or.inr (Or.inl h)
        · exact Or.inr (Or.inr h)
      · rintro (rfl | h | h)
        · exact Or.inr ho
        · exact Or.inl h
        · exact Or.inr h
    · rw [if_neg ho, if_neg ho, ih, List.cons_append]
      refine congrArg _ (congrArg _ (freshList_congr _ _ _ ?_))
      intro x
      simp only [List.mem_append, List.mem_cons]
      tauto

theorem freshList_sublist : ∀ (l ks : List String), (freshList ks l).Sublist l := by
  intro l
  induction l with
  | nil => intro ks; simp [freshList]
  | cons o rest ih =>
    intro ks
    simp only [freshList]
    by_cases ho : o ∈ ks
    · rw [if_pos ho]
      exact (ih ks).cons o
    · rw [if_neg ho]
      exact (ih (o :: ks)).cons₂ o

theorem freshList_nodup : ∀ (l ks : List String), (freshList ks l).Nodup := by
  intro l
  induction l with
  | nil => intro ks; simp [freshList]
  | cons o rest ih =>
    intro ks
    simp only [freshList]
    by_cases ho : o ∈ ks
    · rw [if_pos ho]; exact ih ks
    · rw [if_neg ho]
      refine List.Nodup.cons ?_ (ih (o :: ks))
      intro hmem
      have := (mem_freshList _ _ _).mp hmem
      exact this.2 (List.mem_cons_self _ _)

theorem lookup_isSome_iff {β : Type} : ∀ (l : List (String × β)) (o : String),
    (l.lookup o).isSome ↔ o ∈ alKeys l := by
  intro l
  induction l with
  | nil => intro o; simp [alKeys]
  | cons kv rest ih =>
    intro o
    obtain ⟨k, v⟩ := kv
    simp only [List.lookup_cons, alKeys, List.map_cons, List.mem_cons]
    by_cases hk : o = k
    · subst hk
      simp
    · have hb : (o == k) = false := beq_false_of_ne hk
      rw [hb]
      rw [ih o]
      simp [alKeys, hk]

theorem lookup_mem {β : Type} : ∀ (l : List (String × β)) (o : String) (v : β),
    l.lookup o = some v → (o, v) ∈ l := by
  intro l
  induction l with
  | nil => intro o v h; simp [List.lookup] at h
  | cons kv rest ih =>
    intro o v h
    obtain ⟨k, w⟩ := kv
    rw [List.lookup_cons] at h
    by_cases hk : o = k
    · subst hk
      simp only [beq_self_eq_true] at h
      cases h
      exact List.mem_cons_self _ _
    · have hb : (o == k) = false := beq_false_of_ne hk
      rw [hb] at h
      exact List.mem_cons_of_mem _ (ih o v h)

theorem assignOne_of_mem {st : SubstSt} {o : String} (h : o ∈ alKeys st.subst) :
    assignOne st o = st := by
  unfold assignOne
  rw [if_pos ((lookup_isSome_iff st.subst o).mpr h)]

theorem assignOne_subst_of_not_mem {st : SubstSt} {o : String} (h : o ∉ alKeys st.subst) :
    ∃ a, (assignOne st o).subst = st.subst ++ [(o, a)] := by
  unfold assignOne
  rw [if_neg (by rw [lookup_isSome_iff]; exact h)]
  split
  · split
    · exact ⟨_, rfl⟩
    · exact ⟨_, rfl⟩
  · exact ⟨_, rfl⟩

theorem assignOne_keys_of_not_mem {st : SubstSt} {o : String} (h : o ∉ alKeys st.subst) :
    alKeys (assignOne st o).subst = alKeys st.subst ++ [o] := by
  obtain ⟨a, ha⟩ := assignOne_subst_of_not_mem h
  rw [ha]
  simp [alKeys]

theorem assignOne_mnemonic {st : SubstSt} {o v : String} (h : o ∉ alKeys st.subst)
    (hsv : substnames.lookup o = some v) (hv : v ∉ st.subst.map Prod.snd) :
    assignOne st o = ⟨st.subst ++ [(o, v)], st.cnt⟩ := by
  unfold assignOne
  rw [if_neg (by rw [lookup_isSome_iff]; exact h), hsv]
  exact if_neg hv

theorem assignOne_taken {st : SubstSt} {o v : String} (h : o ∉ alKeys st.subst)
    (hsv : substnames.lookup o = some v) (hv : v ∈ st.subst.map Prod.snd) :
    assignOne st o = ⟨st.subst ++ [(o, "s" ++ Nat.repr (st.cnt + 1))], st.cnt + 1⟩ := by
  unfold assignOne
  rw [if_neg (by rw [lookup_isSome_iff]; exact h), hsv]
  exact if_pos hv

theorem assignOne_nomnemonic {st : SubstSt} {o : String} (h : o ∉ alKeys st.subst)
    (hsv : substnames.lookup o = none) :
    assignOne st o = ⟨st.subst ++ [(o, "s" ++ Nat.repr (st.cnt + 1))], st.cnt + 1⟩ := by
  unfold assignOne
  rw [if_neg (by rw [lookup_isSome_iff]; exact h), hsv]

theorem assignOne_subst_append (st : SubstSt) (o : String) :
    ∃ e, (assignOne st o).subst = st.subst ++ e := by
  by_cases h : o ∈ alKeys st.subst
  · exact ⟨[], by rw [assignOne_of_mem h, List.append_nil]⟩
  · obtain ⟨a, ha⟩ := assignOne_subst_of_not_mem h
    exact ⟨[(o, a)], ha⟩

theorem foldl_assignOne_extends : ∀ (l : List String) (st : SubstSt),
    ∃ e, (l.foldl assignOne st).subst = st.subst ++ e := by
  intro l
  induction l with
  | nil => intro st; exact ⟨[], (List.append_nil _).symm⟩
  | cons o rest ih =>
    intro st
    rw [List.foldl_cons]
    obtain ⟨e₁, he₁⟩ := assignOne_subst_append st o
    obtain ⟨e₂, he₂⟩ := ih (assignOne st o)
    exact ⟨e₁ ++ e₂, by rw [he₂, he₁, List.append_assoc]⟩

theorem foldl_assignOne_decision : ∀ (l : List String) (st : SubstSt)
    (pre : List (String × String)) (p a : String) (post : List (String × String)),
    (l.foldl assignOne st).subst = pre ++ (p, a) :: post →
    st.subst.length ≤ pre.length →
    (∀ m, substnames.lookup p = some m → m ∉ pre.map Prod.snd → a = m) ∧
    (substnames.lookup p = none → ∃ k, 1 ≤ k ∧ a = "s" ++ Nat.repr k) ∧
    (∀ m, substnames.lookup p = some m → m ∈ pre.map Prod.snd →
      ∃ k, 1 ≤ k ∧ a = "s" ++ Nat.repr k) := by
  intro l
  induction l with
  | nil =>
    intro st pre p a post h hlen
    exfalso
    rw [List.foldl_nil] at h
    have hl := congrArg List.length h
    simp only [List.length_append, List.length_cons] at hl
    omega
  | cons o rest ih =>
    intro st pre p a post h hlen
    rw [List.foldl_cons] at h
    by_cases ho : o ∈ alKeys st.subst
    · rw [assignOne_of_mem ho] at h
      exact ih st pre p a post h hlen
    · rcases Nat.lt_or_ge st.subst.length pre.length with hlt | hge
      · obtain ⟨a₀, ha₀⟩ := assignOne_subst_of_not_mem ho
        refine ih (assignOne st o) pre p a post h ?_
        rw [ha₀]
        simp only [List.length_append, List.length_singleton]
        omega
      · have heq : st.subst.length = pre.length := Nat.le_antisymm hlen hge
        cases hsv : substnames.lookup o with
        | some v =>
          by_cases hv : v ∈ st.subst.map Prod.snd
          · rw [assignOne_taken ho hsv hv] at h
            obtain ⟨extra, hex⟩ := foldl_assignOne_extends rest
              ⟨st.subst ++ [(o, "s" ++ Nat.repr (st.cnt + 1))], st.cnt + 1⟩
            rw [hex, List.append_assoc] at h
            obtain ⟨hpre, htail⟩ := List.append_inj h heq
            rw [List.singleton_append] at htail
            injection htail with hhead htl
            cases hhead
            refine ⟨?_, ?_, ?_⟩
            · intro m hm hnm
              rw [hsv] at hm
              have hmv : v = m := Option.some.inj hm
              rw [← hpre] at hnm
              rw [hmv] at hv
              exact absurd hv hnm
            · intro hn
              rw [hsv] at hn
              cases hn
            · intro m hm hmem
              exact ⟨st.cnt + 1, Nat.succ_le_succ (Nat.zero_le _), rfl⟩
          · rw [assignOne_mnemonic ho hsv hv] at h
            obtain ⟨extra, hex⟩ := foldl_assignOne_extends rest
              ⟨st.subst ++ [(o, v)], st.cnt⟩
            rw [hex, List.append_assoc] at h
            obtain ⟨hpre, htail⟩ := List.append_inj h heq
            rw [List.singleton_append] at htail
            injection htail with hhead htl
            cases hhead
            refine ⟨?_, ?_, ?_⟩
            · intro m hm hnm
              rw [hsv] at hm
              exact Option.some.inj hm
            · intro hn
              rw [hsv] at hn
              cases hn
            · intro m hm hmem
              rw [hsv] at hm
              have hmv : a = m := Option.some.inj hm
              rw [← hpre] at hmem
              rw [hmv] at hv
              exact absurd hmem hv
        | none =>
          rw [assignOne_nomnemonic ho hsv] at h
          obtain ⟨extra, hex⟩ := foldl_assignOne_extends rest
            ⟨st.subst ++ [(o, "s" ++ Nat.repr (st.cnt + 1))], st.cnt + 1⟩
          rw [hex, List.append_assoc] at h
          obtain ⟨hpre, htail⟩ := List.append_inj h heq
          rw [List.singleton_append] at htail
          injection htail with hhead htl
          cases hhead
          refine ⟨?_, ?_, ?_⟩
          · intro m hm
            rw [hsv] at hm
            cases hm
          · intro hn
            exact ⟨st.cnt + 1, Nat.succ_le_succ (Nat.zero_le _), rfl⟩
          · intro m hm
            rw [hsv] at hm
            cases hm

theorem foldl_assignOne_fresh : ∀ (l : List String) (st : SubstSt),
    l.foldl assignOne st = (freshList (alKeys st.subst) l).foldl assignOne st := by
  intro l
  induction l with
  | nil => intro st; rfl
  | cons o rest ih =>
    intro st
    simp only [List.foldl_cons, freshList]
    by_cases ho : o ∈ alKeys st.subst
    · rw [if_pos ho, assignOne_of_mem ho]
      exact ih st
    · rw [if_neg ho, List.foldl_cons, ih (assignOne st o)]
      refine congrArg (List.foldl assignOne (assignOne st o)) ?_
      refine freshList_congr _ _ _ ?_
      intro x
      rw [assignOne_keys_of_not_mem ho]
      simp only [List.mem_append, List.mem_singleton, List.mem_cons]
      tauto

theorem makesubstAux_flatMap : ∀ (objs : List String) (st : SubstSt),
    makesubstAux st objs = (objs.flatMap parents).foldl assignOne st := by
  intro objs
  induction objs with
  | nil => intro st; rfl
  | cons o rest ih =>
    intro st
    simp only [makesubstAux, List.foldl_cons, List.flatMap_cons, List.foldl_append]
    exact ih ((parents o).foldl assignOne st)

theorem makesubst_eq_fresh (objs : List String) :
    makesubst objs =
      ((freshList [] ((sortStrings objs).flatMap parents)).foldl assignOne ⟨[], 0⟩).subst := by
  unfold makesubst
  rw [makesubstAux_flatMap]
  rw [foldl_assignOne_fresh]
  rfl

theorem mem_keys_assignOne (st : SubstSt) (o x : String) :
    x ∈ alKeys (assignOne st o).subst ↔ x ∈ alKeys st.subst ∨ x = o := by
  by_cases ho : o ∈ alKeys st.subst
  · rw [assignOne_of_mem ho]
    constructor
    · exact Or.inl
    · rintro (h | rfl); exact h; exact ho
  · rw [assignOne_keys_of_not_mem ho]
    simp

theorem mem_keys_foldl : ∀ (l : List String) (st : SubstSt) (x : String),
    x ∈ alKeys ((l.foldl assignOne st).subst) ↔ x ∈ alKeys st.subst ∨ x ∈ l := by
  intro l
  induction l with
  | nil => intro st x; simp
  | cons o rest ih =>
    intro st x
    simp only [List.foldl_cons, ih, mem_keys_assignOne, List.mem_cons]
    tauto

theorem charListLe_lex (x y : List Char) :
    charListLe x y = true ↔ ¬ List.Lex (· < ·) y x := by
  induction x generalizing y with
  | nil =>
    constructor
    · intro _ hlex
      exact List.Lex.not_nil_right _ _ hlex
    · intro _
      cases y <;> rfl
  | cons c cs ih =>
    cases y with
    | nil =>
      constructor
      · intro h
        simp [charListLe] at h
      · intro h
        exact absurd List.Lex.nil h
    | cons d ds =>
      simp only [charListLe]
      rcases lt_trichotomy c d with hcd | hcd | hcd
      · rw [if_pos hcd]
        simp only [true_iff]
        intro hlex
        cases hlex with
        | rel h => exact lt_asymm hcd h
        | cons h => exact lt_irrefl _ hcd
      · subst hcd
        rw [if_neg (lt_irrefl c), if_neg (lt_irrefl c), ih ds]
        constructor
        · intro h hlex
          cases hlex with
          | rel h2 => exact lt_irrefl _ h2
          | cons h2 => exact h h2
        · intro h hlex
          exact h (List.Lex.cons hlex)
      · rw [if_neg (lt_asymm hcd), if_pos hcd]
        simp only [Bool.false_eq_true, false_iff, not_not]
        exact List.Lex.rel hcd

theorem strOrd_iff (a b : String) : strOrd a b ↔ a ≤ b := by
  rw [strOrd, charListLe_lex, ← strLt_iff, not_lt]

theorem sortStrings_perm (l : List String) : (sortStrings l).Perm l :=
  List.perm_insertionSort strOrd l

theorem sortStrings_sorted (l : List String) : (sortStrings l).Sorted (· ≤ ·) :=
  (List.sorted_insertionSort strOrd l).imp (fun h => (strOrd_iff _ _).mp h)

theorem sortStrings_eq_of_sorted {l : List String} (h : l.Sorted (· ≤ ·)) :
    sortStrings l = l :=
  List.Sorted.insertionSort_eq (h.imp (fun hab => (strOrd_iff _ _).mpr hab))

theorem sortStrings_eq_of_perm {l₁ l₂ : List String} (h : l₁.Perm l₂) :
    sortStrings l₁ = sortStrings l₂ := by
  refine List.eq_of_perm_of_sorted ?_ (sortStrings_sorted l₁) (sortStrings_sorted l₂)
  exact ((sortStrings_perm l₁).trans h).trans (sortStrings_perm l₂).symm

theorem mem_msort (m : Multiset String) (x : String) : x ∈ msort m ↔ x ∈ m := by
  induction m using Quot.inductionOn with
  | h l => exact ((sortStrings_perm l).mem_iff).trans (Multiset.mem_coe).symm

theorem msort_sorted (m : Multiset String) : (msort m).Sorted (· ≤ ·) := by
  induction m using Quot.inductionOn with
  | h l => exact sortStrings_sorted l

theorem msort_nodup (m : Multiset String) (h : m.Nodup) : (msort m).Nodup := by
  induction m using Quot.inductionOn with
  | h l => exact ((sortStrings_perm l).nodup_iff).mpr (Multiset.coe_nodup.mp h)

theorem mem_finsetSorted (S : Finset String) (x : String) :
    x ∈ finsetSorted S ↔ x ∈ S :=
  (mem_msort S.val x).trans (Finset.mem_def).symm

theorem finsetSorted_sorted (S : Finset String) : (finsetSorted S).Sorted (· ≤ ·) :=
  msort_sorted S.val

theorem finsetSorted_nodup (S : Finset String) : (finsetSorted S).Nodup :=
  msort_nodup S.val S.nodup

theorem makesubst_perm {l₁ l₂ : List String} (h : l₁.Perm l₂) :
    makesubst l₁ = makesubst l₂ := by
  unfold makesubst
  rw [sortStrings_eq_of_perm h]

theorem makesubst_keys_mem (objs : List String) (x : String) :
    x ∈ alKeys (makesubst objs) ↔ ∃ o ∈ objs, dotPre x o := by
  unfold makesubst
  rw [makesubstAux_flatMap, mem_keys_foldl]
  simp only [alKeys, List.map_nil, List.not_mem_nil, false_or, List.mem_flatMap]
  constructor
  · rintro ⟨o, ho, hx⟩
    exact ⟨o, (sortStrings_perm objs).mem_iff.mp ho, (parents_mem x o).mp hx⟩
  · rintro ⟨o, ho, hx⟩
    exact ⟨o, (sortStrings_perm objs).mem_iff.mpr ho, (parents_mem x o).mpr hx⟩

/-! ### Injectivity of `Nat.repr` and freshness of counter tokens -/

theorem toDigitsCore_acc : ∀ (f n : Nat) (ds : List Char),
    Nat.toDigitsCore 10 f n ds = Nat.toDigitsCore 10 f n [] ++ ds := by
  intro f
  induction f with
  | zero => intro n ds; simp [Nat.toDigitsCore]
  | succ f ih =>
    intro n ds
    simp only [Nat.toDigitsCore]
    by_cases h : n / 10 = 0
    · rw [if_pos h, if_pos h]
      simp
    · rw [if_neg h, if_neg h]
      rw [ih (n / 10) ((n % 10).digitChar :: ds), ih (n / 10) [(n % 10).digitChar]]
      simp

theorem digitChar_val (d : Nat) (h : d < 10) :
    (Nat.digitChar d).toNat - '0'.toNat = d := by
  interval_cases d <;> decide

theorem decValAux_append_one (l : List Char) (c : Char) :
    decValAux (l ++ [c]) = decValAux l * 10 + (c.toNat - '0'.toNat) := by
  simp [decValAux, List.foldl_append]

theorem toDigitsCore_val : ∀ (f n : Nat), n < 10 ^ f →
    decValAux (Nat.toDigitsCore 10 f n []) = n := by
  intro f
  induction f with
  | zero =>
    intro n hn
    simp only [pow_zero, Nat.lt_one_iff] at hn
    subst hn
    simp [Nat.toDigitsCore, decValAux]
  | succ f ih =>
    intro n hn
    simp only [Nat.toDigitsCore]
    by_cases h : n / 10 = 0
    · rw [if_pos h]
      have hm : n % 10 < 10 := Nat.mod_lt _ (by omega)
      have := digitChar_val (n % 10) hm
      simp only [decValAux, List.foldl_cons, List.foldl_nil, Nat.zero_mul, Nat.zero_add]
      rw [this]
      omega
    · rw [if_neg h]
      rw [toDigitsCore_acc]
      rw [decValAux_append_one]
      have hdiv : n / 10 < 10 ^ f := by
        rw [Nat.div_lt_iff_lt_mul (by omega : 0 < 10)]
        calc n < 10 ^ (f + 1) := hn
        _ = 10 ^ f * 10 := by rw [pow_succ]
      rw [ih (n / 10) hdiv]
      have hm : n % 10 < 10 := Nat.mod_lt _ (by omega)
      rw [digitChar_val (n % 10) hm]
      omega

theorem natRepr_injective : Function.Injective Nat.repr := by
  intro m n h
  have hd : Nat.toDigits 10 m = Nat.toDigits 10 n := by
    have : (Nat.toDigits 10 m).asString.data = (Nat.toDigits 10 n).asString.data := by
      rw [show (Nat.toDigits 10 m).asString = Nat.repr m from rfl,
        show (Nat.toDigits 10 n).asString = Nat.repr n from rfl, h]
    simpa [List.asString] using this
  have hb : (1 : Nat) < 10 := by omega
  have hm : m < 10 ^ (m + 1) :=
    lt_of_lt_of_le (Nat.lt_pow_self hb m) (Nat.pow_le_pow_right (by omega) (by omega))
  have hn : n < 10 ^ (n + 1) :=
    lt_of_lt_of_le (Nat.lt_pow_self hb n) (Nat.pow_le_pow_right (by omega) (by omega))
  calc m = decValAux (Nat.toDigitsCore 10 (m + 1) m []) := (toDigitsCore_val _ _ hm).symm
  _ = decValAux (Nat.toDigitsCore 10 (n + 1) n []) := by
      rw [show Nat.toDigitsCore 10 (m + 1) m [] = Nat.toDigits 10 m from rfl, hd]; rfl
  _ = n := toDigitsCore_val _ _ hn

theorem counterToken_inj {j k : Nat} (h : "s" ++ Nat.repr j = "s" ++ Nat.repr k) : j = k := by
  apply natRepr_injective
  have := congrArg String.data h
  rw [String.data_append, String.data_append] at this
  have h2 := List.append_cancel_left this
  exact String.ext h2

theorem substnames_not_counter : ∀ pa ∈ substnames, ∀ k : Nat, pa.2 ≠ "s" ++ Nat.repr k := by
  intro pa hpa k h
  have hhead : pa.2.data.head? = some 's' := by
    rw [h, String.data_append]
    rfl
  have : ∀ pb ∈ substnames, pb.2.data.head? ≠ some 's' := by decide
  exact this pa hpa hhead

theorem stInv_assignOne {st : SubstSt} (h : stInv st) (o : String) :
    stInv (assignOne st o) := by
  by_cases ho : o ∈ alKeys st.subst
  · rw [assignOne_of_mem ho]; exact h
  · obtain ⟨hnd, hcl⟩ := h
    unfold assignOne
    rw [if_neg (by rw [lookup_isSome_iff]; exact ho)]
    have hcounter : ∀ a ∈ st.subst.map Prod.snd, a ≠ "s" ++ Nat.repr (st.cnt + 1) := by
      intro a ha heq
      obtain ⟨pb, hpb, rfl⟩ := List.mem_map.mp ha
      rcases hcl pb hpb with hin | ⟨k, hk1, hk2, hk3⟩
      · exact substnames_not_counter pb hin (st.cnt + 1) heq
      · rw [hk3] at heq
        have := counterToken_inj heq
        omega
    have hnodup : ∀ a : String, (∀ b ∈ st.subst.map Prod.snd, b ≠ a) →
        ((st.subst ++ [(o, a)]).map Prod.snd).Nodup := by
      intro a hfresh
      simp only [List.map_append, List.map_cons, List.map_nil]
      rw [List.nodup_append]
      refine ⟨hnd, List.nodup_singleton _, ?_⟩
      intro b hb hc
      simp only [List.mem_singleton] at hc
      exact hfresh b hb hc
    split
    next v hsv =>
      by_cases hv : v ∈ st.subst.map Prod.snd
      · rw [if_pos hv]
        unfold stInv
        dsimp only
        constructor
        · exact hnodup _ hcounter
        · intro pa hpa
          rcases List.mem_append.mp hpa with hmem | hmem
          · rcases hcl pa hmem with hin | ⟨k, hk1, hk2, hk3⟩
            · exact Or.inl hin
            · exact Or.inr ⟨k, hk1, by omega, hk3⟩
          · simp only [List.mem_singleton] at hmem
            subst hmem
            exact Or.inr ⟨st.cnt + 1, by omega, by omega, rfl⟩
      · rw [if_neg hv]
        unfold stInv
        dsimp only
        constructor
        · refine hnodup _ ?_
          intro b hb hc
          exact hv (hc ▸ hb)
        · intro pa hpa
          rcases List.mem_append.mp hpa with hmem | hmem
          · rcases hcl pa hmem with hin | ⟨k, hk1, hk2, hk3⟩
            · exact Or.inl hin
            · exact Or.inr ⟨k, hk1, hk2, hk3⟩
          · simp only [List.mem_singleton] at hmem
            subst hmem
            exact Or.inl (lookup_mem _ _ _ hsv)
    next hsv =>
      unfold stInv
      dsimp only
      constructor
      · exact hnodup _ hcounter
      · intro pa hpa
        rcases List.mem_append.mp hpa with hmem | hmem
        · rcases hcl pa hmem with hin | ⟨k, hk1, hk2, hk3⟩
          · exact Or.inl hin
          · exact Or.inr ⟨k, hk1, by omega, hk3⟩
        · simp only [List.mem_singleton] at hmem
          subst hmem
          exact Or.inr ⟨st.cnt + 1, by omega, by omega, rfl⟩

theorem stInv_foldl : ∀ (l : List String) (st : SubstSt), stInv st →
    stInv (l.foldl assignOne st) := by
  intro l
  induction l with
  | nil => intro st h; exact h
  | cons o rest ih =>
    intro st h
    exact ih (assignOne st o) (stInv_assignOne h o)

theorem stInv_makesubstAux (objs : List String) (st : SubstSt) (h : stInv st) :
    stInv (makesubstAux st objs) := by
  rw [makesubstAux_flatMap]
  exact stInv_foldl _ _ h

theorem stInv_empty : stInv ⟨[], 0⟩ := by
  constructor
  · simp
  · intro pa hpa
    simp at hpa

theorem makesubst_values_nodup (objs : List String) :
    ((makesubst objs).map Prod.snd).Nodup :=
  (stInv_makesubstAux (sortStrings objs) ⟨[], 0⟩ stInv_empty).1

theorem makesubst_classify (objs : List String) :
    ∀ pa ∈ makesubst objs,
      pa ∈ substnames ∨ ∃ k, 1 ≤ k ∧ pa.2 = "s" ++ Nat.repr k := by
  intro pa hpa
  rcases (stInv_makesubstAux (sortStrings objs) ⟨[], 0⟩ stInv_empty).2 pa hpa with h | ⟨k, h1, h2, h3⟩
  · exact Or.inl h
  · exact Or.inr ⟨k, h1, h3⟩

theorem snd_nodup_inj {β : Type} [DecidableEq β] :
    ∀ (l : List (String × β)), (l.map Prod.snd).Nodup →
      ∀ p q a, (p, a) ∈ l → (q, a) ∈ l → p = q := by
  intro l
  induction l with
  | nil => intro _ p q a hp hq; simp at hp
  | cons kv rest ih =>
    intro hnd p q a hp hq
    obtain ⟨k, w⟩ := kv
    simp only [List.map_cons, List.nodup_cons] at hnd
    obtain ⟨hw, hnd'⟩ := hnd
    rcases List.mem_cons.mp hp with hp1 | hp1 <;> rcases List.mem_cons.mp hq with hq1 | hq1
    · cases hp1; cases hq1; rfl
    · cases hp1
      exact absurd (List.mem_map.mpr ⟨(q, a), hq1, rfl⟩) hw
    · cases hq1
      exact absurd (List.mem_map.mpr ⟨(p, a), hp1, rfl⟩) hw
    · exact ih hnd' p q a hp1 hq1

theorem makesubst_injective (objs : List String) : aliasInjective (makesubst objs) := by
  intro p q a hp hq
  exact snd_nodup_inj _ (makesubst_values_nodup objs) p q a
    (lookup_mem _ _ _ hp) (lookup_mem _ _ _ hq)

/-! ### First hosts and the order of first encounters -/

theorem firstHost_cons (o : String) (l : List String) (r : String) :
    firstHost (o :: l) r = if dotPre r o then some o else firstHost l r := by
  unfold firstHost
  rw [List.find?_cons]
  by_cases h : dotPre r o
  · simp [h]
  · simp [h]

theorem firstHost_mem {l : List String} {r o : String} (h : firstHost l r = some o) :
    o ∈ l ∧ dotPre r o := by
  unfold firstHost at h
  refine ⟨List.mem_of_find?_eq_some h, ?_⟩
  have := List.find?_some h
  simpa using this

theorem firstHost_isSome {l : List String} {r o : String} (ho : o ∈ l) (hd : dotPre r o) :
    ∃ u, firstHost l r = some u := by
  cases hfh : firstHost l r with
  | some u => exact ⟨u, rfl⟩
  | none =>
    exfalso
    unfold firstHost at hfh
    rw [List.find?_eq_none] at hfh
    exact absurd hd (by simpa using hfh o ho)

theorem firstHost_min {l : List String} (hs : l.Sorted (· < ·)) {r o : String}
    (h : firstHost l r = some o) : ∀ x ∈ l, dotPre r x → o ≤ x := by
  induction l with
  | nil => simp [firstHost] at h
  | cons a rest ih =>
    rw [firstHost_cons] at h
    by_cases hd : dotPre r a
    · rw [if_pos hd] at h
      cases h
      intro x hx hdx
      rcases List.mem_cons.mp hx with rfl | hx'
      · exact le_refl _
      · exact le_of_lt (List.rel_of_sorted_cons hs x hx')
    · rw [if_neg hd] at h
      intro x hx hdx
      rcases List.mem_cons.mp hx with rfl | hx'
      · exact absurd hdx hd
      · exact ih (List.pairwise_cons.mp hs).2 h x hx' hdx

theorem keyOrder_irrefl (l : List String) (r : String) : ¬ keyOrder l r r := by
  rintro ⟨a, b, h1, h2, h3⟩
  rw [h1] at h2
  cases h2
  rcases h3 with h | ⟨-, h⟩
  · exact lt_irrefl _ h
  · exact lt_irrefl _ h

theorem keyOrder_asymm (l : List String) (r t : String) (h1 : keyOrder l r t)
    (h2 : keyOrder l t r) : False := by
  obtain ⟨a, b, ha, hb, hab⟩ := h1
  obtain ⟨b', a', hb', ha', hba⟩ := h2
  rw [ha] at ha'
  rw [hb] at hb'
  cases ha'
  cases hb'
  rcases hab with h | ⟨rfl, h⟩ <;> rcases hba with h' | ⟨h'', h'⟩
  · exact lt_asymm h h'
  · exact absurd h (h'' ▸ lt_irrefl _)
  · exact absurd h' (lt_irrefl _)
  · omega

theorem keyOrder_total (l : List String) (r t : String)
    (hr : ∃ o ∈ l, dotPre r o) (ht : ∃ o ∈ l, dotPre t o) (hne : r ≠ t) :
    keyOrder l r t ∨ keyOrder l t r := by
  obtain ⟨or, horl, hor⟩ := hr
  obtain ⟨ot, hotl, hot⟩ := ht
  obtain ⟨a, ha⟩ := firstHost_isSome horl hor
  obtain ⟨b, hb⟩ := firstHost_isSome hotl hot
  have hara := firstHost_mem ha
  have hbtb := firstHost_mem hb
  rcases lt_trichotomy a b with hab | rfl | hab
  · exact Or.inl ⟨a, b, ha, hb, Or.inl hab⟩
  · rcases lt_trichotomy r.data.length t.data.length with hl | hl | hl
    · exact Or.inl ⟨a, a, ha, hb, Or.inr ⟨rfl, hl⟩⟩
    · exact absurd (dotPre_eq_of_len hara.2 hbtb.2 hl) hne
    · exact Or.inr ⟨a, a, hb, ha, Or.inr ⟨rfl, hl⟩⟩
  · exact Or.inr ⟨b, a, hb, ha, Or.inl hab⟩

theorem pairwise_keyOrder : ∀ (L : List String), L.Sorted (· < ·) →
    ∀ ks, (freshList ks (L.flatMap parents)).Pairwise (keyOrder L) := by
  intro L
  induction L with
  | nil => intro _ ks; simp [freshList]
  | cons o L' ih =>
    intro hs ks
    rw [List.flatMap_cons, freshList_append, List.pairwise_append]
    refine ⟨?_, ?_, ?_⟩
    · have hpw := List.Pairwise.sublist (freshList_sublist (parents o) ks) (parents_pairwise o)
      refine List.Pairwise.imp_of_mem (fun {x} {y} hx hy hR => ?_) hpw
      have hxo : dotPre x o :=
        (parents_mem _ _).mp ((mem_freshList _ _ _).mp hx).1
      have hyo : dotPre y o :=
        (parents_mem _ _).mp ((mem_freshList _ _ _).mp hy).1
      refine ⟨o, o, ?_, ?_, Or.inr ⟨rfl, ?_⟩⟩
      · rw [firstHost_cons, if_pos hxo]
      · rw [firstHost_cons, if_pos hyo]
      · have := hR.length_le
        simp only [List.length_append, List.length_cons, List.length_nil] at this
        omega
    · have hpw := ih (List.pairwise_cons.mp hs).2 (parents o ++ ks)
      refine List.Pairwise.imp_of_mem (fun {x} {y} hx hy hR => ?_) hpw
      have hx' := (mem_freshList _ _ _).mp hx
      have hy' := (mem_freshList _ _ _).mp hy
      have hxnp : ¬ dotPre x o := fun hd =>
        hx'.2 (List.mem_append.mpr (Or.inl ((parents_mem _ _).mpr hd)))
      have hynp : ¬ dotPre y o := fun hd =>
        hy'.2 (List.mem_append.mpr (Or.inl ((parents_mem _ _).mpr hd)))
      obtain ⟨o₁, o₂, h1, h2, h3⟩ := hR
      refine ⟨o₁, o₂, ?_, ?_, h3⟩
      · rw [firstHost_cons, if_neg hxnp]; exact h1
      · rw [firstHost_cons, if_neg hynp]; exact h2
    · intro x hx y hy
      have hxo : dotPre x o :=
        (parents_mem _ _).mp ((mem_freshList _ _ _).mp hx).1
      have hy' := (mem_freshList _ _ _).mp hy
      have hynp : ¬ dotPre y o := fun hd =>
        hy'.2 (List.mem_append.mpr (Or.inl ((parents_mem _ _).mpr hd)))
      obtain ⟨hh, hhmem, hyh⟩ := List.mem_flatMap.mp hy'.1
      obtain ⟨u, hu⟩ := firstHost_isSome hhmem ((parents_mem _ _).mp hyh)
      refine ⟨o, u, ?_, ?_, Or.inl ?_⟩
      · rw [firstHost_cons, if_pos hxo]
      · rw [firstHost_cons, if_neg hynp]; exact hu
      · exact List.rel_of_sorted_cons hs u (firstHost_mem hu).1

/-! ### The encounter order does not change when prefixes are added -/

theorem keyOrder_step (L Lbig : List String)
    (hsL : L.Sorted (· < ·)) (hsLbig : Lbig.Sorted (· < ·))
    (hmem : ∀ x, x ∈ Lbig ↔ x ∈ L ∨ ∃ o ∈ L, dotPre x o)
    (r t : String) (h : keyOrder L r t) : keyOrder Lbig r t := by
  obtain ⟨o₁, o₂, h1, h2, h3⟩ := h
  have ho₁ := firstHost_mem h1
  have ho₂ := firstHost_mem h2
  have ho₁b : o₁ ∈ Lbig := (hmem o₁).mpr (Or.inl ho₁.1)
  have ho₂b : o₂ ∈ Lbig := (hmem o₂).mpr (Or.inl ho₂.1)
  obtain ⟨u₁, hu₁⟩ := firstHost_isSome ho₁b ho₁.2
  obtain ⟨u₂, hu₂⟩ := firstHost_isSome ho₂b ho₂.2
  have hu₁m := firstHost_mem hu₁
  have hu₂m := firstHost_mem hu₂
  have hu₁le : u₁ ≤ o₁ := firstHost_min hsLbig hu₁ o₁ ho₁b ho₁.2
  rcases h3 with hlt | ⟨heq, hlen⟩
  · refine ⟨u₁, u₂, hu₁, hu₂, Or.inl ?_⟩
    rcases (hmem u₂).mp hu₂m.1 with hu₂L | ⟨ostar, hostar, hdu₂⟩
    · have h4 : o₂ ≤ u₂ := firstHost_min hsL h2 u₂ hu₂L hu₂m.2
      exact lt_of_le_of_lt hu₁le (lt_of_lt_of_le hlt h4)
    · rcases lt_trichotomy o₁ u₂ with hc | hc | hc
      · exact lt_of_le_of_lt hu₁le hc
      · exfalso
        have h4 : o₂ ≤ o₁ := firstHost_min hsL h2 o₁ ho₁.1 (hc ▸ hu₂m.2)
        exact absurd hlt (not_lt.mpr h4)
      · exfalso
        have hto : dotPre t ostar := dotPre_trans hu₂m.2 hdu₂
        have ho₂o : o₂ ≤ ostar := firstHost_min hsL h2 ostar hostar hto
        have hu₂pref : u₂.data <+: ostar.data :=
          (List.prefix_append _ _).trans hdu₂
        have ho₁lt : o₁ < ostar := lt_of_lt_of_le hlt ho₂o
        have h5 : u₂.data <+: o₁.data := strLt_interval hu₂pref hc ho₁lt
        have h6 : dotPre t o₁ := dotPre_of_data_prefix hu₂m.2 h5
        have h7 : o₂ ≤ o₁ := firstHost_min hsL h2 o₁ ho₁.1 h6
        exact absurd hlt (not_lt.mpr h7)
  · subst heq
    have hrt : dotPre r t := dotPre_len_lt ho₁.2 ho₂.2 hlen
    have hru₂ : dotPre r u₂ := dotPre_trans hrt hu₂m.2
    have hu₁leu₂ : u₁ ≤ u₂ := firstHost_min hsLbig hu₁ u₂ hu₂m.1 hru₂
    rcases lt_or_eq_of_le hu₁leu₂ with hlt' | heq'
    · exact ⟨u₁, u₂, hu₁, hu₂, Or.inl hlt'⟩
    · exact ⟨u₁, u₂, hu₁, hu₂, Or.inr ⟨heq', hlen⟩⟩

theorem keyOrder_iff (L Lbig : List String)
    (hsL : L.Sorted (· < ·)) (hsLbig : Lbig.Sorted (· < ·))
    (hmem : ∀ x, x ∈ Lbig ↔ x ∈ L ∨ ∃ o ∈ L, dotPre x o)
    (r t : String) (hr : ∃ o ∈ L, dotPre r o) (ht : ∃ o ∈ L, dotPre t o) :
    keyOrder L r t ↔ keyOrder Lbig r t := by
  by_cases hne : r = t
  · subst hne
    constructor
    · intro h; exact absurd h (keyOrder_irrefl _ _)
    · intro h; exact absurd h (keyOrder_irrefl _ _)
  · constructor
    · exact keyOrder_step L Lbig hsL hsLbig hmem r t
    · intro hbig
      rcases keyOrder_total L r t hr ht hne with h | h
      · exact h
      · exfalso
        exact keyOrder_asymm _ _ _ (keyOrder_step L Lbig hsL hsLbig hmem t r h) hbig

/-! ### Equality of duplicate-free lists sharing a first-occurrence order -/

theorem nodup_pairwise_ext :
    ∀ (l₁ l₂ : List String) (R S : String → String → Prop),
      l₁.Nodup → l₂.Nodup → (∀ x, x ∈ l₁ ↔ x ∈ l₂) →
      l₁.Pairwise R → l₂.Pairwise S →
      (∀ x y, x ∈ l₁ → y ∈ l₁ → (R x y ↔ S x y)) →
      (∀ x y, x ∈ l₁ → y ∈ l₁ → x ≠ y → R x y ∨ R y x) →
      (∀ x y, R x y → R y x → False) →
      l₁ = l₂ := by
  intro l₁
  induction l₁ with
  | nil =>
    intro l₂ R S _ _ hmem _ _ _ _ _
    cases l₂ with
    | nil => rfl
    | cons b t₂ => exact absurd ((hmem b).mpr (List.mem_cons_self _ _)) (by simp)
  | cons a t₁ ih =>
    intro l₂ R S hnd₁ hnd₂ hmem hpw₁ hpw₂ hagree htot hasym
    cases l₂ with
    | nil => exact absurd ((hmem a).mp (List.mem_cons_self _ _)) (by simp)
    | cons b t₂ =>
      by_cases hab : a = b
      · subst hab
        obtain ⟨ha₁, hnd₁'⟩ := List.nodup_cons.mp hnd₁
        obtain ⟨ha₂, hnd₂'⟩ := List.nodup_cons.mp hnd₂
        refine congrArg _ (ih t₂ R S hnd₁' hnd₂' ?_ (List.pairwise_cons.mp hpw₁).2
          (List.pairwise_cons.mp hpw₂).2 ?_ ?_ hasym)
        · intro x
          constructor
          · intro hx
            rcases List.mem_cons.mp ((hmem x).mp (List.mem_cons_of_mem _ hx)) with rfl | h
            · exact absurd hx ha₁
            · exact h
          · intro hx
            rcases List.mem_cons.mp ((hmem x).mpr (List.mem_cons_of_mem _ hx)) with rfl | h
            · exact absurd hx ha₂
            · exact h
        · intro x y hx hy
          exact hagree x y (List.mem_cons_of_mem _ hx) (List.mem_cons_of_mem _ hy)
        · intro x y hx hy
          exact htot x y (List.mem_cons_of_mem _ hx) (List.mem_cons_of_mem _ hy)
      · exfalso
        have hb₁ : b ∈ a :: t₁ := (hmem b).mpr (List.mem_cons_self _ _)
        have hbt₁ : b ∈ t₁ := by
          rcases List.mem_cons.mp hb₁ with h | h
          · exact absurd h.symm hab
          · exact h
        have ha₂ : a ∈ b :: t₂ := (hmem a).mp (List.mem_cons_self _ _)
        have hat₂ : a ∈ t₂ := by
          rcases List.mem_cons.mp ha₂ with h | h
          · exact absurd h hab
          · exact h
        have hRab : R a b := List.rel_of_pairwise_cons hpw₁ hbt₁
        have hSba : S b a := List.rel_of_pairwise_cons hpw₂ hat₂
        have hRba : R b a :=
          (hagree b a (List.mem_cons_of_mem _ hbt₁) (List.mem_cons_self _ _)).mpr hSba
        exact hasym a b hRab hRba

/-! ### `makesubst` is unchanged by adding the parents of the input set -/

theorem finsetSort_sorted_lt (S : Finset String) :
    (finsetSorted S).Sorted (· < ·) := by
  have h1 := finsetSorted_sorted S
  have h2 := finsetSorted_nodup S
  refine (List.Pairwise.and h1 h2).imp ?_
  rintro a b ⟨hle, hne⟩
  exact lt_of_le_of_ne hle hne

theorem mem_parentFinset (S : Finset String) (x : String) :
    x ∈ parentFinset S ↔ ∃ o ∈ S, dotPre x o := by
  unfold parentFinset
  rw [Finset.mem_biUnion]
  constructor
  · rintro ⟨o, ho, hx⟩
    exact ⟨o, ho, (parents_mem _ _).mp (List.mem_toFinset.mp hx)⟩
  · rintro ⟨o, ho, hx⟩
    exact ⟨o, ho, List.mem_toFinset.mpr ((parents_mem _ _).mpr hx)⟩

theorem makesubst_union_parents (S : Finset String) :
    makesubst (finsetSorted (S ∪ parentFinset S)) = makesubst (finsetSorted S) := by
  have hsL : (finsetSorted S).Sorted (· < ·) := finsetSort_sorted_lt S
  have hsLbig : (finsetSorted (S ∪ parentFinset S)).Sorted (· < ·) :=
    finsetSort_sorted_lt _
  have hmem : ∀ x, x ∈ finsetSorted (S ∪ parentFinset S) ↔
      x ∈ finsetSorted S ∨ ∃ o ∈ finsetSorted S, dotPre x o := by
    intro x
    rw [mem_finsetSorted, Finset.mem_union, mem_finsetSorted, mem_parentFinset]
    constructor
    · rintro (h | ⟨o, ho, hd⟩)
      · exact Or.inl h
      · exact Or.inr ⟨o, (mem_finsetSorted _ _).mpr ho, hd⟩
    · rintro (h | ⟨o, ho, hd⟩)
      · exact Or.inl h
      · exact Or.inr ⟨o, (mem_finsetSorted _ _).mp ho, hd⟩
  rw [makesubst_eq_fresh, makesubst_eq_fresh,
    sortStrings_eq_of_sorted (finsetSorted_sorted _),
    sortStrings_eq_of_sorted (finsetSorted_sorted _)]
  suffices h : freshList [] ((finsetSorted (S ∪ parentFinset S)).flatMap parents) =
      freshList [] ((finsetSorted S).flatMap parents) by rw [h]
  have hflat : ∀ x, x ∈ (finsetSorted (S ∪ parentFinset S)).flatMap parents ↔
      x ∈ (finsetSorted S).flatMap parents := by
    intro x
    simp only [List.mem_flatMap]
    constructor
    · rintro ⟨h, hh, hx⟩
      rcases (hmem h).mp hh with hL | ⟨o, hoL, hdo⟩
      · exact ⟨h, hL, hx⟩
      · exact ⟨o, hoL, (parents_mem _ _).mpr (dotPre_trans ((parents_mem _ _).mp hx) hdo)⟩
    · rintro ⟨h, hh, hx⟩
      exact ⟨h, (hmem h).mpr (Or.inl hh), hx⟩
  have hostedBig : ∀ x, x ∈ (finsetSorted (S ∪ parentFinset S)).flatMap parents →
      ∃ o ∈ finsetSorted S, dotPre x o := by
    intro x hx
    obtain ⟨o, ho, hxo⟩ := List.mem_flatMap.mp ((hflat x).mp hx)
    exact ⟨o, ho, (parents_mem _ _).mp hxo⟩
  refine nodup_pairwise_ext _ _ (keyOrder (finsetSorted (S ∪ parentFinset S)))
    (keyOrder (finsetSorted S)) (freshList_nodup _ _) (freshList_nodup _ _) ?_
    (pairwise_keyOrder _ hsLbig []) (pairwise_keyOrder _ hsL []) ?_ ?_ ?_
  · intro x
    rw [mem_freshList, mem_freshList]
    simp only [List.not_mem_nil, not_false_iff, and_true]
    exact hflat x
  · intro x y hx hy
    have hx' := ((mem_freshList _ _ _).mp hx).1
    have hy' := ((mem_freshList _ _ _).mp hy).1
    exact (keyOrder_iff _ _ hsL hsLbig hmem x y (hostedBig x hx') (hostedBig y hy')).symm
  · intro x y hx hy hne
    have hx' := ((mem_freshList _ _ _).mp hx).1
    have hy' := ((mem_freshList _ _ _).mp hy).1
    obtain ⟨ox, hox, hdx⟩ := List.mem_flatMap.mp hx'
    obtain ⟨oy, hoy, hdy⟩ := List.mem_flatMap.mp hy'
    exact keyOrder_total _ x y ⟨ox, hox, (parents_mem _ _).mp hdx⟩
      ⟨oy, hoy, (parents_mem _ _).mp hdy⟩ hne
  · exact fun x y => keyOrder_asymm _ x y

/-! ### Structure of `render` -/

theorem makesubst_sort_keys (S : Finset String) :
    ((makesubst (finsetSorted S)).map Prod.fst).toFinset = parentFinset S := by
  ext x
  rw [List.mem_toFinset]
  have h := makesubst_keys_mem (finsetSorted S) x
  unfold alKeys at h
  rw [h, mem_parentFinset]
  constructor
  · rintro ⟨o, ho, hd⟩
    exact ⟨o, (mem_finsetSorted _ _).mp ho, hd⟩
  · rintro ⟨o, ho, hd⟩
    exact ⟨o, (mem_finsetSorted _ _).mpr ho, hd⟩

theorem parentFinset_empty : parentFinset ∅ = ∅ := by
  unfold parentFinset
  simp

theorem parentFinset_union (S : Finset String) :
    parentFinset (S ∪ parentFinset S) = parentFinset S := by
  ext x
  rw [mem_parentFinset, mem_parentFinset]
  constructor
  · rintro ⟨o, ho, hd⟩
    rcases Finset.mem_union.mp ho with h | h
    · exact ⟨o, h, hd⟩
    · obtain ⟨o', ho', hd'⟩ := (mem_parentFinset S o).mp h
      exact ⟨o', ho', dotPre_trans hd hd'⟩
  · rintro ⟨o, ho, hd⟩
    exact ⟨o, Finset.mem_union_left _ ho, hd⟩

theorem renderInclude_empty : renderInclude ∅ = some ("", ∅) := by
  unfold renderInclude
  simp

theorem renderInclude_elim {S : Finset String} {inc : String} {newInc : Finset String}
    (hne : S ≠ ∅) (h : renderInclude S = some (inc, newInc)) :
    newInc = S ∪ parentFinset S ∧
      ∃ incl, optMapList (fun obj => dosubst obj (makesubst (finsetSorted S)))
          (finsetSorted (S ∪ parentFinset S)) = some incl ∧
        inc = " INCLUDE " ++ String.intercalate ", " incl := by
  unfold renderInclude at h
  rw [if_neg hne] at h
  simp only [makesubst_sort_keys] at h
  cases hm : optMapList (fun obj => dosubst obj (makesubst (finsetSorted S)))
      (finsetSorted (S ∪ parentFinset S)) with
  | none => rw [hm] at h; exact absurd h (by simp)
  | some incl =>
    rw [hm] at h
    simp only [Option.some.injEq, Prod.mk.injEq] at h
    exact ⟨h.2.symm, incl, rfl, h.1.symm⟩

theorem renderInclude_newInc {S : Finset String} {inc : String} {newInc : Finset String}
    (h : renderInclude S = some (inc, newInc)) :
    newInc = S ∪ parentFinset S := by
  by_cases hne : S = ∅
  · subst hne
    rw [renderInclude_empty] at h
    simp only [Option.some.injEq, Prod.mk.injEq] at h
    rw [← h.2, parentFinset_empty]
    simp
  · exact (renderInclude_elim hne h).1

theorem renderInclude_stable {S : Finset String} {inc : String} {newInc : Finset String}
    (h : renderInclude S = some (inc, newInc)) :
    renderInclude newInc = some (inc, newInc) := by
  by_cases hne : S = ∅
  · subst hne
    rw [renderInclude_empty] at h
    simp only [Option.some.injEq, Prod.mk.injEq] at h
    rw [← h.1, ← h.2]
    exact renderInclude_empty
  · obtain ⟨hnew, incl, hm, hinc⟩ := renderInclude_elim hne h
    have hnew' : newInc ≠ ∅ := by
      rw [hnew]
      intro hcon
      exact hne (Finset.union_eq_empty.mp hcon).1
    unfold renderInclude
    rw [if_neg hnew']
    have hsubst : makesubst (finsetSorted newInc) = makesubst (finsetSorted S) := by
      rw [hnew]
      exact makesubst_union_parents S
    rw [hsubst]
    simp only [makesubst_sort_keys]
    have hclosed : newInc ∪ parentFinset S = newInc := by
      rw [hnew]
      rw [Finset.union_assoc, Finset.union_idempotent]
    rw [hclosed]
    have hsort : finsetSorted newInc = finsetSorted (S ∪ parentFinset S) := by rw [hnew]
    rw [hsort, hm, hinc]

theorem render_elim {q : Query} {s : String} {q' : Query} (h : render q = some (s, q')) :
    ∃ joins w ord inc newInc,
      renderJoins (makesubst (joinattrsList q)) = some joins ∧
      renderWhere q.conditions (makesubst (joinattrsList q)) = some w ∧
      renderOrder q.order (makesubst (joinattrsList q)) = some ord ∧
      renderInclude q.includes = some (inc, newInc) ∧
      s = "SELECT o FROM " ++ q.entity.BeanName ++ " o" ++ joins ++ w ++ ord ++ inc ∧
      q' = { q with includes := newInc } := by
  unfold render at h
  dsimp only at h
  cases hj : renderJoins (makesubst (joinattrsList q)) with
  | none => rw [hj] at h; exact absurd h (by simp)
  | some joins =>
  cases hw : renderWhere q.conditions (makesubst (joinattrsList q)) with
  | none => rw [hj, hw] at h; exact absurd h (by simp)
  | some w =>
  cases ho : renderOrder q.order (makesubst (joinattrsList q)) with
  | none => rw [hj, hw, ho] at h; exact absurd h (by simp)
  | some ord =>
  cases hi : renderInclude q.includes with
  | none => rw [hj, hw, ho, hi] at h; exact absurd h (by simp)
  | some incNew =>
    obtain ⟨inc, newInc⟩ := incNew
    rw [hj, hw, ho, hi] at h
    simp only [Option.some.injEq, Prod.mk.injEq] at h
    exact ⟨joins, w, ord, inc, newInc, rfl, rfl, rfl, rfl, h.1.symm, h.2.symm⟩

theorem render_mk {q : Query} {joins w ord inc : String} {newInc : Finset String}
    (hj : renderJoins (makesubst (joinattrsList q)) = some joins)
    (hw : renderWhere q.conditions (makesubst (joinattrsList q)) = some w)
    (ho : renderOrder q.order (makesubst (joinattrsList q)) = some ord)
    (hi : renderInclude q.includes = some (inc, newInc)) :
    render q = some ("SELECT o FROM " ++ q.entity.BeanName ++ " o" ++ joins ++ w ++ ord ++ inc,
      { q with includes := newInc }) := by
  unfold render
  dsimp only
  rw [hj, hw, ho, hi]

theorem dosubst_as {obj : String} {subst : List (String × String)} {al str : String}
    (hl : subst.lookup obj = some al) (h : dosubst obj subst = some str) :
    ∃ n, str = n ++ " AS " ++ al := by
  unfold dosubst at h
  dsimp only at h
  rw [hl] at h
  revert h
  generalize (match rsplitDot obj with
    | none => some ("o." ++ obj)
    | some (pre, last) =>
      match subst.lookup pre with
      | some al => some (al ++ "." ++ last)
      | none => none) = b
  intro h
  cases b with
  | none => exact absurd h (by simp)
  | some n =>
    simp only [Option.some.injEq] at h
    exact ⟨n, h.symm⟩

/-- C4: for every Query, calling render() twice in a row with no
intervening mutating operation yields byte-identical result strings: a
successful render followed by a second render of the returned state
produces the same string (and the state is a fixed point). -/
theorem claimC4_idempotent : ∀ (q : Query) (s : String) (q₁ : Query),
    render q = some (s, q₁) → render q₁ = some (s, q₁) := by
  intro q s q₁ h
  obtain ⟨joins, w, ord, inc, newInc, hj, hw, ho, hi, hs, hq⟩ := render_elim h
  subst hq
  subst hs
  have hj' : renderJoins (makesubst (joinattrsList { q with includes := newInc })) =
      some joins := hj
  have hw' : renderWhere ({ q with includes := newInc } : Query).conditions
      (makesubst (joinattrsList { q with includes := newInc })) = some w := hw
  have ho' : renderOrder ({ q with includes := newInc } : Query).order
      (makesubst (joinattrsList { q with includes := newInc })) = some ord := ho
  have hi' : renderInclude ({ q with includes := newInc } : Query).includes =
      some (inc, newInc) := renderInclude_stable hi
  exact render_mk hj' hw' ho' hi'

/-- C3 (amended): render() leaves the target entity type, the order
list, the condition mapping and the limit unchanged, but it is not free
of side effects on the include set: rendering replaces the include set
by its closure, adding every proper dotted prefix of every included
path. -/
theorem claimC3_frame : ∀ (q : Query) (s : String) (q' : Query),
    render q = some (s, q') →
    q'.entity = q.entity ∧ q'.order = q.order ∧ q'.conditions = q.conditions ∧
    q'.limit = q.limit ∧ q'.includes = q.includes ∪ parentFinset q.includes := by
  intro q s q' h
  obtain ⟨joins, w, ord, inc, newInc, hj, hw, ho, hi, hs, hq⟩ := render_elim h
  subst hq
  exact ⟨rfl, rfl, rfl, rfl, renderInclude_newInc hi⟩

/-- C1 (amended): render() computes one alias table over the union of
the condition paths and the order paths only; that table is shared by
the JOIN, WHERE and ORDER BY parts, while the INCLUDE part is rendered
against a second, independently computed alias table over the include
paths.  Each of the two tables is collision free internally, but the
same alias token can stand for different prefixes in the INCLUDE part
than in the other parts (see the counterexample). -/
theorem claimC1_sep_tables : ∀ (q : Query) (s : String) (q' : Query),
    render q = some (s, q') →
    ∃ joins w ord inc newInc,
      renderJoins (makesubst (joinattrsList q)) = some joins ∧
      renderWhere q.conditions (makesubst (joinattrsList q)) = some w ∧
      renderOrder q.order (makesubst (joinattrsList q)) = some ord ∧
      renderInclude q.includes = some (inc, newInc) ∧
      s = "SELECT o FROM " ++ q.entity.BeanName ++ " o" ++ joins ++ w ++ ord ++ inc ∧
      aliasInjective (makesubst (joinattrsList q)) ∧
      aliasInjective (makesubst (finsetSorted (q.includes))) := by
  intro q s q' h
  obtain ⟨joins, w, ord, inc, newInc, hj, hw, ho, hi, hs, hq⟩ := render_elim h
  exact ⟨joins, w, ord, inc, newInc, hj, hw, ho, hi, hs,
    makesubst_injective _, makesubst_injective _⟩

/-- C5 (amended): alias allocation assigns an alias to every proper
dotted prefix of every input path and to nothing else (totality), the
resulting table is injective, and the result is a deterministic
function of the input set: permuting the input iterable does not change
the table.  The prefixes are encountered while the input paths are
scanned in lexicographic order, each path's own prefixes shortest
first; the table is not in general the one obtained by processing the
prefixes themselves in lexicographic order (see the counterexample). -/
theorem claimC5_alloc :
    (∀ (l : List String) (p : String),
      p ∈ (makesubst l).map Prod.fst ↔ ∃ o ∈ l, dotPre p o) ∧
    (∀ l : List String, aliasInjective (makesubst l)) ∧
    (∀ l₁ l₂ : List String, l₁.Perm l₂ → makesubst l₁ = makesubst l₂) := by
  refine ⟨?_, ?_, ?_⟩
  · intro l p
    exact makesubst_keys_mem l p
  · intro l
    exact makesubst_injective l
  · intro l₁ l₂ h
    exact makesubst_perm h

/-- C6 (amended): a prefix not yet assigned an alias receives the
mnemonic that the fixed table holds for the full dotted prefix (not for
its final segment) exactly when that mnemonic is not already taken;
otherwise it receives a counter token `s1, s2, ...` that collides with
no mnemonic and no previously assigned token.  Splitting the produced
table around any entry `(p, a)`, with `pre` the entries assigned before
it: when the table holds a mnemonic `m` for the full key `p` and `m` is
not among the aliases assigned so far, then `a` is that mnemonic `m`;
when the table has no entry for `p`, or its mnemonic is already taken,
then `a` is a counter token.  Moreover every alias is either the
table's entry for its full key or a counter token, aliases are pairwise
distinct, and a counter token never equals a mnemonic. -/
theorem claimC6_alias_choice : ∀ (objs : List String) (pre : List (String × String))
    (p a : String) (post : List (String × String)),
    makesubst objs = pre ++ (p, a) :: post →
    ((p, a) ∈ substnames ∨ ∃ k, 1 ≤ k ∧ a = "s" ++ Nat.repr k) ∧
    (∀ m, substnames.lookup p = some m → m ∉ pre.map Prod.snd → a = m) ∧
    (substnames.lookup p = none → ∃ k, 1 ≤ k ∧ a = "s" ++ Nat.repr k) ∧
    (∀ m, substnames.lookup p = some m → m ∈ pre.map Prod.snd →
      ∃ k, 1 ≤ k ∧ a = "s" ++ Nat.repr k) ∧
    (∀ q b, (q, b) ∈ makesubst objs → q ≠ p → b ≠ a) ∧
    (∀ k : Nat, a = "s" ++ Nat.repr k → ∀ pb ∈ substnames, pb.2 ≠ a) := by
  intro objs pre p a post h
  have hmem : (p, a) ∈ makesubst objs := by
    rw [h]
    exact List.mem_append_right _ (List.mem_cons_self _ _)
  have h' : (((sortStrings objs).flatMap parents).foldl assignOne ⟨[], 0⟩).subst =
      pre ++ (p, a) :: post := by
    rw [← makesubstAux_flatMap]
    exact h
  obtain ⟨hpos, hnone, htaken⟩ :=
    foldl_assignOne_decision _ ⟨[], 0⟩ pre p a post h' (Nat.zero_le _)
  refine ⟨makesubst_classify objs (p, a) hmem, hpos, hnone, htaken, ?_, ?_⟩
  · intro q b hqb hne hba
    subst hba
    exact hne (snd_nodup_inj _ (makesubst_values_nodup objs) q p b hqb hmem)
  · intro k hk pb hpb hpb2
    exact substnames_not_counter pb hpb k (hpb2.trans hk)

/-- C10: after a successful render() of a Query with a non-empty
include set, the new include set is closed under taking proper dotted
prefixes (render added every proper prefix of every included path), and
the rendered string ends in an INCLUDE clause listing this closed set
in lexicographic order, rendered against the include alias table; an
entry has an alias (and hence an ` AS` label, see the last conjunct)
exactly when it is a proper prefix of some included path. -/
theorem claimC10_include_closure : ∀ (q : Query) (s : String) (q' : Query),
    q.includes ≠ ∅ → render q = some (s, q') →
    (∀ x ∈ q'.includes, ∀ p, dotPre p x → p ∈ q'.includes) ∧
    (∃ incl, optMapList (fun obj => dosubst obj (makesubst (finsetSorted (q'.includes))))
        (finsetSorted (q'.includes)) = some incl ∧
      ∃ pre, s = pre ++ (" INCLUDE " ++ String.intercalate ", " incl)) ∧
    (∀ obj ∈ q'.includes,
      ((makesubst (finsetSorted (q'.includes))).lookup obj).isSome ↔
        ∃ x ∈ q'.includes, dotPre obj x) ∧
    (∀ obj al str, (makesubst (finsetSorted (q'.includes))).lookup obj = some al →
      dosubst obj (makesubst (finsetSorted (q'.includes))) = some str →
      ∃ n, str = n ++ " AS " ++ al) := by
  intro q s q' hne h
  obtain ⟨joins, w, ord, inc, newInc, hj, hw, ho, hi, hs, hq⟩ := render_elim h
  subst hq
  obtain ⟨hnew, incl, hm, hinc⟩ := renderInclude_elim hne hi
  have hincc : ({ q with includes := newInc } : Query).includes = newInc := rfl
  have hsubst : makesubst (finsetSorted newInc) = makesubst (finsetSorted (q.includes)) := by
    rw [hnew]
    exact makesubst_union_parents q.includes
  have hsort : finsetSorted newInc = finsetSorted (q.includes ∪ parentFinset q.includes) := by
    rw [hnew]
  refine ⟨?_, ?_, ?_, ?_⟩
  · intro x hx p hpx
    rw [hincc] at hx ⊢
    rw [hnew] at hx ⊢
    rcases Finset.mem_union.mp hx with hxS | hxP
    · exact Finset.mem_union_right _ ((mem_parentFinset _ _).mpr ⟨x, hxS, hpx⟩)
    · obtain ⟨o, hoS, hdo⟩ := (mem_parentFinset _ _).mp hxP
      exact Finset.mem_union_right _
        ((mem_parentFinset _ _).mpr ⟨o, hoS, dotPre_trans hpx hdo⟩)
  · refine ⟨incl, ?_, ?_⟩
    · rw [hincc, hsubst, hsort]
      exact hm
    · exact ⟨"SELECT o FROM " ++ q.entity.BeanName ++ " o" ++ joins ++ w ++ ord,
        by rw [hs, hinc]⟩
  · intro obj hobj
    rw [hincc] at *
    rw [lookup_isSome_iff, makesubst_keys_mem]
    constructor
    · rintro ⟨o, ho, hd⟩
      exact ⟨o, (mem_finsetSorted _ _).mp ho, hd⟩
    · rintro ⟨o, ho, hd⟩
      exact ⟨o, (mem_finsetSorted _ _).mpr ho, hd⟩
  · intro obj al str hl hd
    exact dosubst_as hl hd

theorem render_set_limit (q : Query) (x : Option (LimitVal × LimitVal)) :
    render { q with limit := x } =
      (render q).map (fun sq => (sq.1, { sq.2 with limit := x })) := by
  cases hr : render q with
  | none =>
    cases hx : render { q with limit := x } with
    | none => simp
    | some sq =>
      exfalso
      obtain ⟨sxs, sxq⟩ := sq
      obtain ⟨joins, w, ord, inc, newInc, hj, hw, ho, hi, -, -⟩ := render_elim hx
      have hj' : renderJoins (makesubst (joinattrsList q)) = some joins := hj
      have hw' : renderWhere q.conditions (makesubst (joinattrsList q)) = some w := hw
      have ho' : renderOrder q.order (makesubst (joinattrsList q)) = some ord := ho
      have hi' : renderInclude q.includes = some (inc, newInc) := hi
      have := render_mk hj' hw' ho' hi'
      rw [hr] at this
      exact absurd this (by simp)
  | some sq =>
    obtain ⟨s, qq⟩ := sq
    obtain ⟨joins, w, ord, inc, newInc, hj, hw, ho, hi, hs, hq⟩ := render_elim hr
    have hj' : renderJoins (makesubst (joinattrsList { q with limit := x })) =
        some joins := hj
    have hw' : renderWhere ({ q with limit := x } : Query).conditions
        (makesubst (joinattrsList { q with limit := x })) = some w := hw
    have ho' : renderOrder ({ q with limit := x } : Query).order
        (makesubst (joinattrsList { q with limit := x })) = some ord := ho
    have hi' : renderInclude ({ q with limit := x } : Query).includes =
        some (inc, newInc) := hi
    have hmk := render_mk hj' hw' ho' hi'
    rw [hmk]
    simp only [Option.map_some]
    subst hq
    subst hs
    rfl

/-- C9 (spec-modelled): setLimit stores a pair whose elements are each
either a non-negative integer or an opaque placeholder string, leaving
all other Query state unchanged, and rendering with the limit extension
appends `LIMIT <offset>, <count>` to the rendered query string whenever
a limit was set, rendering placeholder elements verbatim without
performing any substitution. -/
theorem claimC9_limit : ∀ (q : Query) (off cnt : LimitVal),
    (setLimit q (off, cnt)).limit = some (off, cnt) ∧
    (setLimit q (off, cnt)).entity = q.entity ∧
    (setLimit q (off, cnt)).order = q.order ∧
    (setLimit q (off, cnt)).conditions = q.conditions ∧
    (setLimit q (off, cnt)).includes = q.includes ∧
    ((renderWithLimit (setLimit q (off, cnt))).map Prod.fst =
      (renderStr q).map
        (fun s => s ++ " LIMIT " ++ renderLimitVal off ++ ", " ++ renderLimitVal cnt)) ∧
    (∀ s, renderLimitVal (.placeholder s) = s) ∧
    (∀ n, renderLimitVal (.num n) = Nat.repr n) := by
  intro q off cnt
  refine ⟨rfl, rfl, rfl, rfl, rfl, ?_, fun s => rfl, fun n => rfl⟩
  have hsl : setLimit q (off, cnt) = { q with limit := some (off, cnt) } := rfl
  rw [hsl]
  rw [renderWithLimit, render_set_limit, renderStr]
  cases render q with
  | none => simp
  | some sq => simp [limitClause, String.append_assoc]

/-! ### Natural order and path resolution -/

theorem excMapList_ok_mem {α β : Type} {f : α → Except Err β} :
    ∀ {l : List α} {out : List β}, excMapList f l = .ok out →
      ∀ y ∈ out, ∃ x ∈ l, f x = .ok y := by
  intro l
  induction l with
  | nil =>
    intro out h y hy
    simp only [excMapList, Except.ok.injEq] at h
    subst h
    simp at hy
  | cons a rest ih =>
    intro out h y hy
    unfold excMapList at h
    cases hfa : f a with
    | error e => rw [hfa] at h; exact absurd h (by simp)
    | ok b =>
      rw [hfa] at h
      cases hrest : excMapList f rest with
      | error e => rw [hrest] at h; exact absurd h (by simp)
      | ok bs =>
        rw [hrest] at h
        simp only [Except.ok.injEq] at h
        subst h
        rcases List.mem_cons.mp hy with rfl | hy'
        · exact ⟨a, List.mem_cons_self _ _, hfa⟩
        · obtain ⟨x, hx, hfx⟩ := ih hrest y hy'
          exact ⟨x, List.mem_cons_of_mem _ hx, hfx⟩

theorem splitDotsAux_ne_nil : ∀ (cs acc : List Char), splitDotsAux cs acc ≠ [] := by
  intro cs
  induction cs with
  | nil => intro acc; simp [splitDotsAux]
  | cons c rest ih =>
    intro acc
    unfold splitDotsAux
    by_cases hc : c = '.'
    · rw [if_pos hc]; simp
    · rw [if_neg hc]; exact ih (acc ++ [c])

theorem splitDots_ne_nil (s : String) : splitDots s ≠ [] :=
  splitDotsAux_ne_nil s.data []

theorem splitDotsAux_no_dot : ∀ (cs acc : List Char), '.' ∉ cs →
    splitDotsAux cs acc = [String.mk (acc ++ cs)] := by
  intro cs
  induction cs with
  | nil => intro acc _; simp [splitDotsAux]
  | cons c rest ih =>
    intro acc h
    have hc : c ≠ '.' := fun he => h (he ▸ List.mem_cons_self _ _)
    unfold splitDotsAux
    rw [if_neg hc, ih (acc ++ [c]) (fun hd => h (List.mem_cons_of_mem _ hd))]
    simp

theorem splitDots_single {s : String} (h : '.' ∉ s.data) : splitDots s = [s] := by
  unfold splitDots
  rw [splitDotsAux_no_dot s.data [] h]
  simp

theorem splitDotsAux_cons_dot (rest acc : List Char) :
    splitDotsAux ('.' :: rest) acc = String.mk acc :: splitDotsAux rest [] := by
  simp [splitDotsAux]

theorem splitDotsAux_cons_ne {c : Char} (h : c ≠ '.') (rest acc : List Char) :
    splitDotsAux (c :: rest) acc = splitDotsAux rest (acc ++ [c]) := by
  simp [splitDotsAux, h]

theorem splitDotsAux_dotted : ∀ (a : List Char), '.' ∉ a → ∀ (rest acc : List Char),
    splitDotsAux (a ++ '.' :: rest) acc =
      String.mk (acc ++ a) :: splitDotsAux rest [] := by
  intro a
  induction a with
  | nil =>
    intro _ rest acc
    rw [List.nil_append, splitDotsAux_cons_dot]
    simp
  | cons c a' ih =>
    intro h rest acc
    have hc : c ≠ '.' := fun he => h (he ▸ List.mem_cons_self _ _)
    rw [List.cons_append, splitDotsAux_cons_ne hc,
      ih (fun hd => h (List.mem_cons_of_mem _ hd)) rest (acc ++ [c])]
    simp

theorem splitDots_append {a : String} (h : '.' ∉ a.data) (ra : String) :
    splitDots (a ++ "." ++ ra) = a :: splitDots ra := by
  unfold splitDots
  have hd : (a ++ "." ++ ra).data = a.data ++ '.' :: ra.data := by
    rw [String.data_append, String.data_append]
    have hdot : ("." : String).data = ['.'] := by decide
    rw [hdot]
    simp
  rw [hd, splitDotsAux_dotted a.data h ra.data []]
  simp

theorem getAttrInfo_mem {e : EntityClass} {a : String} {info : AttrInfo}
    (h : getAttrInfo e a = .ok info) : (a, info) ∈ e.attrs := by
  unfold getAttrInfo at h
  cases hl : e.attrs.lookup a with
  | none => rw [hl] at h; exact absurd h (by simp)
  | some i =>
    rw [hl] at h
    simp only [Except.ok.injEq] at h
    subst h
    exact lookup_mem _ _ _ hl

theorem getentityclassbyname_mem {client : Client} {name : String} {c : EntityClass}
    (h : getentityclassbyname client name = .ok c) : c ∈ client.typemap := by
  unfold getentityclassbyname at h
  cases hf : client.typemap.find? (fun cl => cl.BeanName == name) with
  | none => rw [hf] at h; exact absurd h (by simp)
  | some c' =>
    rw [hf] at h
    simp only [Except.ok.injEq] at h
    subst h
    exact List.mem_of_find?_eq_some hf

theorem natorder_attribute (client : Client) (hclient : wfClient client) :
    ∀ (fuel : Nat) (entity : EntityClass), wfEntityClass entity →
    ∀ (order : List String), getnaturalorder client fuel entity = .ok order →
    ∀ p ∈ order, pathRelType client entity (splitDots p) = .ok .ATTRIBUTE := by
  intro fuel
  induction fuel with
  | zero =>
    intro entity _ order h
    simp [getnaturalorder] at h
  | succ fuel ih =>
    intro entity hent order h p hp
    unfold getnaturalorder at h
    split at h
    · exact absurd h (by simp)
    · rename_i parts hm
      simp only [Except.ok.injEq] at h
      subst h
      obtain ⟨part, hpart, hpmem⟩ := List.mem_flatten.mp hp
      obtain ⟨a, hamem, hfa⟩ := excMapList_ok_mem hm part hpart
      cases hai : getAttrInfo entity a with
      | error e => rw [hai] at hfa; exact absurd hfa (by simp)
      | ok info =>
        rw [hai] at hfa
        dsimp only at hfa
        have hadot : '.' ∉ a.data := hent (a, info) (getAttrInfo_mem hai)
        cases hrel : info.relType with
        | ATTRIBUTE =>
          rw [hrel] at hfa
          dsimp only at hfa
          simp only [Except.ok.injEq] at hfa
          subst hfa
          simp only [List.mem_singleton] at hpmem
          subst hpmem
          rw [splitDots_single hadot]
          unfold pathRelType
          rw [hai]
          dsimp only
          rw [hrel]
        | MANY =>
          rw [hrel] at hfa
          dsimp only at hfa
          simp only [Except.ok.injEq] at hfa
          subst hfa
          simp at hpmem
        | ONE =>
          rw [hrel] at hfa
          dsimp only at hfa
          cases hcls : getentityclassbyname client info.type with
          | error e => rw [hcls] at hfa; exact absurd hfa (by simp)
          | ok rclass =>
            rw [hcls] at hfa
            dsimp only at hfa
            cases hrec : getnaturalorder client fuel rclass with
            | error e => rw [hrec] at hfa; exact absurd hfa (by simp)
            | ok rorder =>
              rw [hrec] at hfa
              dsimp only at hfa
              simp only [Except.ok.injEq] at hfa
              subst hfa
              obtain ⟨ra, hra, rfl⟩ := List.mem_map.mp hpmem
              have hrwf : wfEntityClass rclass := hclient rclass (getentityclassbyname_mem hcls)
              have hih := ih rclass hrwf rorder hrec ra hra
              rw [splitDots_append hadot]
              cases hsp : splitDots ra with
              | nil => exact absurd hsp (splitDots_ne_nil ra)
              | cons s₀ rest =>
                rw [hsp] at hih
                unfold pathRelType
                rw [hai]
                dsimp only
                rw [hrel]
                dsimp only
                rw [hcls]
                dsimp only
                exact hih

/-- C7: an entity type's natural order, whenever the recursion
terminates, contains no path whose final segment is a to-many relation:
every path in the result resolves to a plain attribute, to-many
attributes being skipped silently at every level. -/
theorem claimC7_no_many : ∀ (client : Client) (fuel : Nat) (entity : EntityClass)
    (order : List String), wfClient client → wfEntityClass entity →
    getnaturalorder client fuel entity = .ok order →
    ∀ p ∈ order, pathRelType client entity (splitDots p) ≠ .ok .MANY := by
  intro client fuel entity order hclient hent h p hp
  rw [natorder_attribute client hclient fuel entity hent order h p hp]
  simp

/-! ### Ordering on a to-many relation raises `ValueError` eagerly -/

theorem walkSegs_many (client : Client) (obj bean : String) :
    ∀ (segs : List String) (entity : EntityClass),
      pathRelType client entity segs = .ok .MANY →
      walkSegs client obj bean entity false segs =
        .error (.valueError ("Cannot use one to many relationship in '" ++ obj ++
          "' to order " ++ bean ++ ".")) := by
  intro segs
  induction segs with
  | nil =>
    intro entity h
    simp [pathRelType] at h
  | cons a rest ih =>
    intro entity h
    cases rest with
    | nil =>
      unfold pathRelType at h
      cases hai : getAttrInfo entity a with
      | error e => rw [hai] at h; exact absurd h (by simp)
      | ok info =>
        rw [hai] at h
        dsimp only at h
        simp only [Except.ok.injEq] at h
        unfold walkSegs
        rw [if_neg (by simp), hai]
        dsimp only
        rw [h]
    | cons b rest' =>
      unfold pathRelType at h
      cases hai : getAttrInfo entity a with
      | error e => rw [hai] at h; exact absurd h (by simp)
      | ok info =>
        rw [hai] at h
        dsimp only at h
        cases hrel : info.relType with
        | ATTRIBUTE => rw [hrel] at h; dsimp only at h; exact absurd h (by simp)
        | MANY => rw [hrel] at h; dsimp only at h; exact absurd h (by simp)
        | ONE =>
          rw [hrel] at h
          dsimp only at h
          cases hcls : getentityclassbyname client info.type with
          | error e => rw [hcls] at h; exact absurd h (by simp)
          | ok rclass =>
            rw [hcls] at h
            dsimp only at h
            unfold walkSegs
            rw [if_neg (by simp), hai]
            dsimp only
            rw [hrel]
            dsimp only
            rw [hcls]
            dsimp only
            exact ih rclass h

theorem setOrder_many {client : Client} {fuel : Nat} {entity : EntityClass} {obj : String}
    (h : pathRelType client entity (splitDots obj) = .ok .MANY) :
    setOrder client fuel entity (.explicit [obj]) =
      .error (.valueError ("Cannot use one to many relationship in '" ++ obj ++
        "' to order " ++ entity.BeanName ++ ".")) := by
  have hws := walkSegs_many client obj entity.BeanName (splitDots obj) entity h
  unfold setOrder
  dsimp only
  rw [if_neg (by simp)]
  unfold excMapList resolveOrderObj
  rw [hws]
  try rfl

theorem mkQuery_many {client : Client} {fuel : Nat} {name : String} {entity : EntityClass}
    {obj : String} {conds : List (String × CondVal)} {incl : List String}
    (hcls : getentityclassbyname client name = .ok entity)
    (h : pathRelType client entity (splitDots obj) = .ok .MANY) :
    mkQuery client fuel name (.explicit [obj]) conds incl =
      .error (.valueError ("Cannot use one to many relationship in '" ++ obj ++
        "' to order " ++ entity.BeanName ++ ".")) := by
  unfold mkQuery
  rw [hcls]
  dsimp only
  rw [setOrder_many h]

/-- C8: requesting an explicit order, at construction or through
setOrder, on a path whose final segment is a declared to-many relation
raises `ValueError` ("Cannot use one to many relationship ...")
synchronously at that call: `setOrder` and the constructor themselves
return the error, so no Query object is produced and nothing is
deferred to render(). -/
theorem claimC8_unorderable : ∀ (client : Client) (fuel : Nat) (name : String)
    (entity : EntityClass) (obj : String) (conds : List (String × CondVal))
    (incl : List String),
    getentityclassbyname client name = .ok entity →
    pathRelType client entity (splitDots obj) = .ok .MANY →
    setOrder client fuel entity (.explicit [obj]) =
      .error (.valueError ("Cannot use one to many relationship in '" ++ obj ++
        "' to order " ++ entity.BeanName ++ ".")) ∧
    mkQuery client fuel name (.explicit [obj]) conds incl =
      .error (.valueError ("Cannot use one to many relationship in '" ++ obj ++
        "' to order " ++ entity.BeanName ++ ".")) := by
  intro client fuel name entity obj conds incl hcls h
  exact ⟨setOrder_many h, mkQuery_many hcls h⟩

/-! ### Witnesses and counterexamples on the concrete example data -/

/-- Counterexample to C1 as frozen: rendering `qC1` uses two separate
alias tables, and the token `s1` stands for the prefix `beta` in the
JOIN and WHERE parts but for the distinct prefix `alpha` in the INCLUDE
part of the same rendered string. -/
theorem claimC1_cex :
    render qC1 = some (qC1str, qC1after) ∧
    (makesubst (joinattrsList qC1)).lookup "beta" = some "s1" ∧
    (makesubst (finsetSorted qC1.includes)).lookup "alpha" = some "s1" ∧
    ("beta" : String) ≠ "alpha" := by
  refine ⟨by decide, by decide, by decide, by decide⟩

/-- Witness for C1: the amended statement applied to the concrete query
`qC1`. -/
theorem claimC1_witness :
    ∃ joins w ord inc newInc,
      renderJoins (makesubst (joinattrsList qC1)) = some joins ∧
      renderWhere qC1.conditions (makesubst (joinattrsList qC1)) = some w ∧
      renderOrder qC1.order (makesubst (joinattrsList qC1)) = some ord ∧
      renderInclude qC1.includes = some (inc, newInc) ∧
      qC1str = "SELECT o FROM " ++ qC1.entity.BeanName ++ " o" ++ joins ++ w ++ ord ++ inc ∧
      aliasInjective (makesubst (joinattrsList qC1)) ∧
      aliasInjective (makesubst (finsetSorted (qC1.includes))) :=
  claimC1_sep_tables qC1 qC1str qC1after (by decide)

/-- C2 (amended): the concrete Datafile scenario with the three
conditions `name = 'f.nxs'`, `dataset.name = 'd1'` and
`dataset.investigation.name = 'I1'` renders JOINs for the prefixes
`dataset` (alias `ds`) and `dataset.investigation` (alias `i`), and the
WHERE clause lists the conditions in the lexicographic order of the
condition paths — which puts `i.name = 'I1'` first and
`o.name = 'f.nxs'` last, not the other way round as the frozen claim
spells the clause. -/
theorem claimC2_scenarioB :
    mkQuery clientB 1 "Datafile" OrderSpec.noOrder condsB [] = .ok qB ∧
    renderStr qB = some qBstr ∧
    sortStrings (condsB.map Prod.fst) =
      ["dataset.investigation.name", "dataset.name", "name"] := by
  refine ⟨rfl, by decide, by decide⟩

/-- Counterexample to C2 as frozen: the scenario does not render the
claim's clause order `o.name ... AND ds.name ... AND i.name ...`; the
sorted condition-path order puts `i.name` first. -/
theorem claimC2_cex :
    renderStr qB ≠
      some ("SELECT o FROM Datafile o JOIN o.dataset AS ds JOIN ds.investigation AS i" ++
        " WHERE o.name = 'f.nxs' AND ds.name = 'd1' AND i.name = 'I1'") := by
  decide

/-- Counterexample to C3 as frozen: rendering `qC1` changes its include
set, so render() is not free of side effects on the Query. -/
theorem claimC3_cex :
    render qC1 = some (qC1str, qC1after) ∧ qC1after.includes ≠ qC1.includes := by
  refine ⟨by decide, by decide⟩

/-- Witness for C3: the amended frame statement applied to the concrete
query `qC1`. -/
theorem claimC3_witness :
    qC1after.entity = qC1.entity ∧ qC1after.order = qC1.order ∧
    qC1after.conditions = qC1.conditions ∧ qC1after.limit = qC1.limit ∧
    qC1after.includes = qC1.includes ∪ parentFinset qC1.includes :=
  claimC3_frame qC1 qC1str qC1after (by decide)

/-- Witness for C4: rendering the state `qC1` leaves behind renders to
the same string again and is a fixed point. -/
theorem claimC4_witness : render qC1after = some (qC1str, qC1after) :=
  claimC4_idempotent qC1 qC1str qC1after (by decide)

/-- Counterexample to C5 as frozen: on the input `{"a$b.z", "a.y"}` the
prefix `a` precedes the prefix `a$b` lexicographically (`$` sorts
before `.`, so `a.y` sorts before `a$b.z` only as full paths), yet
`makesubst` assigns `s1` to `a$b` and `s2` to `a`: the table is not the
one obtained by processing the prefixes in lexicographic order. -/
theorem claimC5_cex :
    makesubst ["a$b.z", "a.y"] = [("a$b", "s1"), ("a", "s2")] ∧
    lexOrderSubst ["a$b.z", "a.y"] = [("a", "s1"), ("a$b", "s2")] ∧
    makesubst ["a$b.z", "a.y"] ≠ lexOrderSubst ["a$b.z", "a.y"] := by
  refine ⟨by decide, by decide, by decide⟩

/-- Witness for C6: the amended statement applied to the concrete input
`["dataset.investigation.x", "investigation.y"]`.  There the prefixes
`dataset` and `dataset.investigation` receive their mnemonics `ds` and
`i` first, so when `investigation` is processed its mnemonic `i` is
already taken and the taken-case of the rule yields the counter token
`s1`. -/
theorem claimC6_witness :
    ∃ k, 1 ≤ k ∧ ("s1" : String) = "s" ++ Nat.repr k :=
  (claimC6_alias_choice ["dataset.investigation.x", "investigation.y"]
    [("dataset", "ds"), ("dataset.investigation", "i")] "investigation" "s1" []
    (by decide)).2.2.2.1 "i" (by decide) (by decide)

/-- Counterexample to C6 as frozen: for the input
`["investigation.facility.x"]` the prefix `investigation.facility` has
final segment `facility`, whose mnemonic `f` is free, yet the code
assigns the counter token `s1` (the table is keyed by the full dotted
prefix, which has no entry) and no alias of the table is `f`. -/
theorem claimC6_cex :
    (makesubst ["investigation.facility.x"]).lookup "investigation.facility" = some "s1" ∧
    substnames.lookup "facility" = some "f" ∧
    (∀ pb ∈ makesubst ["investigation.facility.x"], pb.2 ≠ "f") := by
  refine ⟨by decide, by decide, by decide⟩

/-- Witness for C7: on the client `clientC7` the natural order of `A`
is `["name", "ref.num", "id"]`, and its member `ref.num` does not
resolve to a to-many relation. -/
theorem claimC7_witness :
    pathRelType clientC7 classA7 (splitDots "ref.num") ≠ Except.ok RelType.MANY :=
  claimC7_no_many clientC7 2 classA7 ["name", "ref.num", "id"]
    (by unfold wfClient wfEntityClass; decide) (by unfold wfEntityClass; decide)
    rfl "ref.num" (by decide)

/-- Witness for C8: ordering `Datafile` by the to-many relation
`parameters` makes `setOrder` and the constructor fail with the
`ValueError` synchronously. -/
theorem claimC8_witness :
    setOrder clientC8 1 dfClassC8 (OrderSpec.explicit ["parameters"]) =
      .error (.valueError ("Cannot use one to many relationship in '" ++ "parameters" ++
        "' to order " ++ dfClassC8.BeanName ++ ".")) ∧
    mkQuery clientC8 1 "Datafile" (OrderSpec.explicit ["parameters"]) [] [] =
      .error (.valueError ("Cannot use one to many relationship in '" ++ "parameters" ++
        "' to order " ++ dfClassC8.BeanName ++ ".")) :=
  claimC8_unorderable clientC8 1 "Datafile" dfClassC8 "parameters" [] []
    rfl rfl

/-- Witness for C10: rendering `qC1` leaves an include set that holds
the proper prefix `alpha` of the included path `alpha.y`. -/
theorem claimC10_witness : "alpha" ∈ qC1after.includes :=
  (claimC10_include_closure qC1 qC1str qC1after (by decide) (by decide)).1
    "alpha.y" (by decide) "alpha" (by decide)
